import Mathlib

/-!
Resolution of npm v1 lockfiles (`pkg/nodejs/npm/parse.go`)

A shallow embedding of `ID`, `Parse`, `parse`, `unique` and `uniqueDeps`, followed by
the properties proved about them.

Modelling conventions.

* A Go `map[string]T` is an association list `List (String × T)`; the order of the list
  is the order in which `range` visits the entries, and a genuine map has pairwise
  distinct keys (`wfMap`).  A map used only as a set (`map[K]struct{}`) is the list of
  its keys.
* A Go slice is a `List`; a `nil` slice and an empty slice are both `[]`.
* Go strings are `String`.  `sort.Strings` orders byte-wise; on UTF-8 text this is the
  lexicographic order by code point (`StrLE`).
* The `versions` map is passed by reference in Go.  Every function that receives it
  returns its final contents (`Walk.versions`), and `maps.Clone` hands a copy to the
  callee, whose final contents the caller never sees.
-/

namespace Npm

/-! ## Data model -/

/-- Go struct `Dependency`: `Dependencies` is `none` for a nil map. -/
inductive Dependency where
  | mk (Version : String) (Dev : Bool)
       (Dependencies : Option (List (String × Dependency)))
       (Requires : List (String × String))

/-- Go type `map[string]Dependency`, in iteration order. -/
abbrev DepMap := List (String × Dependency)

/-- Field `Version` of a `Dependency`. -/
def Dependency.Version : Dependency → String
  | .mk v _ _ _ => v

/-- Field `Dev` of a `Dependency`. -/
def Dependency.Dev : Dependency → Bool
  | .mk _ d _ _ => d

/-- Field `Dependencies` of a `Dependency`. -/
def Dependency.Dependencies : Dependency → Option DepMap
  | .mk _ _ ds _ => ds

/-- Field `Requires` of a `Dependency`. -/
def Dependency.Requires : Dependency → List (String × String)
  | .mk _ _ _ r => r

/-- Go struct `LockFile`; a nil `Dependencies` map ranges like the empty map. -/
structure LockFile where
  Dependencies : DepMap

/-- Modelled from the spec: `types.Library` is declared outside the listed sources; the
spec's ResolvedLibrary is the pair `(name, version)`, equal iff both fields match. -/
structure Library where
  Name : String
  Version : String
deriving DecidableEq, Repr

/-- Modelled from the spec: `types.Dependency` is declared outside the listed sources;
the spec's ResolvedEdge is a source identifier with a list of target identifiers. -/
structure Edge where
  ID : String
  DependsOn : List String
deriving DecidableEq, Repr

/-- Go map `versions : map[string]string`. -/
abbrev Versions := List (String × String)

/-- Accumulators of one `parse` activation together with the contents of the `versions`
map it was handed. -/
structure Walk where
  libs : List Library
  deps : List Edge
  versions : Versions
deriving DecidableEq, Repr

/-! ## Operations -/

/-- Function `ID(name, version)`, that is `fmt.Sprintf("%s@%s", name, version)`. -/
def ID (name version : String) : String :=
  name ++ "@" ++ version

/-- Assignment `versions[k] = v`. -/
def setVersion (versions : Versions) (k v : String) : Versions :=
  (k, v) :: versions.filter (fun e => e.1 != k)

/-- Call `maps.Clone(versions)`: a fresh map with the same contents. -/
def clone (versions : Versions) : Versions :=
  versions

/-- First loop of `parse`: `versions[pkgName] = dep.Version` for every entry. -/
def recordVersions (dependencies : DepMap) (versions : Versions) : Versions :=
  dependencies.foldl (fun vs e => setVersion vs e.1 e.2.Version) versions

/-- Inner loop of `parse` over `dependency.Requires`, building `dependsOn`: the nested
map is tried first, then `versions`; otherwise a warning is logged and the requirement
contributes nothing. -/
def resolveRequires (nested : Option DepMap) (versions : Versions) :
    List (String × String) → List String
  | [] => []
  | (libName, _requiredVer) :: rest =>
    match nested.bind (fun m => m.lookup libName) with
    | some resolvedDep =>
      ID libName resolvedDep.Version :: resolveRequires nested versions rest
    | none =>
      match versions.lookup libName with
      | some ver => ID libName ver :: resolveRequires nested versions rest
      | none => resolveRequires nested versions rest

mutual
/-- Second loop of `parse` over the entries of `dependencies`. -/
def parseEntries : List (String × Dependency) → Versions → Walk
  | [], versions => ⟨[], [], versions⟩
  | (pkgName, dependency) :: rest, versions =>
    let r := parseDep pkgName dependency versions
    let rr := parseEntries rest r.versions
    ⟨r.libs ++ rr.libs, r.deps ++ rr.deps, rr.versions⟩
/-- Body of the second loop of `parse` for one entry; the recursive call
`parse(dependency.Dependencies, maps.Clone(versions))` appears as the first loop
(`recordVersions`) followed by the second (`parseEntries`) on the clone. -/
def parseDep (pkgName : String) : Dependency → Versions → Walk
  | .mk version dev nested requires, versions =>
    if dev then ⟨[], [], versions⟩
    else
      let lib : Library := ⟨pkgName, version⟩
      let dependsOn := resolveRequires nested versions requires
      let edge : List Edge :=
        if dependsOn.length > 0 then [⟨ID lib.Name lib.Version, dependsOn⟩] else []
      match nested with
      | none => ⟨[lib], edge, versions⟩
      | some ds =>
        let child := parseEntries ds (recordVersions ds (clone versions))
        ⟨lib :: child.libs, edge ++ child.deps, versions⟩
end

/-- Function `parse(dependencies, versions)`. -/
def parse (dependencies : DepMap) (versions : Versions) : Walk :=
  parseEntries dependencies (recordVersions dependencies versions)

/-- Function `unique(libs)`: the pair is (`uniqLibs`, key set of the map `unique`). -/
def unique (libs : List Library) : List Library :=
  (libs.foldl
    (fun (st : List Library × List Library) lib =>
      if lib ∈ st.2 then st else (st.1 ++ [lib], lib :: st.2))
    ([], [])).1

/-- Lexicographic comparison `a ≤ b` of two character sequences. -/
def leChars : List Char → List Char → Bool
  | [], _ => true
  | _ :: _, [] => false
  | a :: as, b :: bs =>
    if a.toNat < b.toNat then true
    else if b.toNat < a.toNat then false
    else leChars as bs

/-- The order of Go strings used by `sort.Strings` (`a <= b`). -/
def StrLE (a b : String) : Prop :=
  leChars a.data b.data = true

instance : DecidableRel StrLE :=
  fun a b => inferInstanceAs (Decidable (leChars a.data b.data = true))

/-- Call `sort.Strings(xs)`: the ascending arrangement of the slice. -/
def sortStrings (xs : List String) : List String :=
  xs.insertionSort StrLE

/-- The key `fmt.Sprintf("%s:%s", dep.ID, strings.Join(dep.DependsOn, ","))`, computed
after `dep.DependsOn` has been sorted. -/
def depKey (dep : Edge) : String :=
  dep.ID ++ ":" ++ ",".intercalate (sortStrings dep.DependsOn)

/-- Function `uniqueDeps(deps)`: `sort.Strings` sorts the slice shared by the loop
variable and the input element, so the edge appended to `uniqDeps` carries the sorted
targets.  The pair is (`uniqDeps`, key set of the map `unique`). -/
def uniqueDeps (deps : List Edge) : List Edge :=
  (deps.foldl
    (fun (st : List Edge × List String) dep =>
      let dep : Edge := ⟨dep.ID, sortStrings dep.DependsOn⟩
      let depKey := dep.ID ++ ":" ++ ",".intercalate dep.DependsOn
      if depKey ∈ st.2 then st else (st.1 ++ [dep], depKey :: st.2))
    ([], [])).1

/-- Function `Parse`, applied to the outcome of the JSON decoder. -/
def Parse (decoded : Except String LockFile) :
    Except String (List Library × List Edge) :=
  match decoded with
  | .error err => .error ("decode error: " ++ err)
  | .ok lockFile =>
    let w := parse lockFile.Dependencies []
    .ok (unique w.libs, uniqueDeps w.deps)

/-! ## Specification-level definitions -/

/-- The elements of `xs` whose key does not occur among the keys of the earlier
elements of `xs`, in the order of `xs`. -/
def firstByKey {α κ : Type} [DecidableEq κ] (key : α → κ) (xs : List α) : List α :=
  xs.enum.filterMap
    (fun p => if key p.2 ∈ (xs.take p.1).map key then none else some p.2)

/-- The edge as `uniqueDeps` stores it: same source, targets sorted. -/
def sortedEdge (dep : Edge) : Edge :=
  ⟨dep.ID, sortStrings dep.DependsOn⟩

/-- An edge whose source has no `:` and whose targets are non-empty and have no `,`. -/
def CleanEdge (d : Edge) : Prop :=
  ':' ∉ d.ID.data ∧ ∀ t ∈ d.DependsOn, t ≠ "" ∧ ',' ∉ t.data

mutual
/-- Keys are pairwise distinct in this map and in every nested map (true of every Go
map). -/
def wfMap : List (String × Dependency) → Bool
  | [] => true
  | (k, d) :: rest => decide (k ∉ rest.map Prod.fst) && wfDep d && wfMap rest
/-- Keys are pairwise distinct in every map nested below this entry. -/
def wfDep : Dependency → Bool
  | .mk _ _ none _ => true
  | .mk _ _ (some ds) _ => wfMap ds
end

/-- A position of the lock tree: the entry `name ↦ node` together with the mappings on
the way from the mapping that holds the entry (first) up to the root mapping (last). -/
structure Visit where
  levels : List DepMap
  name : String
  node : Dependency

/-- The position reached from mapping `m` (below the mappings `levels`) by following the
names of a path through nested maps, provided no entry on the path, the last included,
is a dev entry. -/
def nodeAt (levels : List DepMap) (m : DepMap) : List String → Option Visit
  | [] => none
  | n :: p =>
    match m.lookup n with
    | none => none
    | some d =>
      if d.Dev then none
      else
        match p with
        | [] => some ⟨m :: levels, n, d⟩
        | _ :: _ =>
          match d.Dependencies with
          | none => none
          | some ds => nodeAt (m :: levels) ds p

/-- The version visible for `r` from a stack of mappings, closest mapping first, falling
back on the scope inherited by the root call. -/
def scopeVersion (inherited : Versions) : List DepMap → String → Option String
  | [], r => inherited.lookup r
  | m :: rest, r =>
    match m.lookup r with
    | some d => some d.Version
    | none => scopeVersion inherited rest r

/-- The version a requirement `r` of the node at a position resolves to: the node's own
nested entry first, then the closest enclosing level. -/
def resolvedVersion (inherited : Versions) (v : Visit) (r : String) : Option String :=
  match v.node.Dependencies.bind (fun m => m.lookup r) with
  | some d => some d.Version
  | none => scopeVersion inherited v.levels r

/-- The identifiers of the resolvable requirements of a position, in `Requires` order. -/
def targets (inherited : Versions) (v : Visit) : List String :=
  v.node.Requires.filterMap (fun q => (resolvedVersion inherited v q.1).map (ID q.1))

/-- The library of a position. -/
def libOf (v : Visit) : Library :=
  ⟨v.name, v.node.Version⟩

/-- The edge of a position, if it has a resolvable requirement. -/
def edgeOf (inherited : Versions) (v : Visit) : Option Edge :=
  if (targets inherited v).length > 0 then
    some ⟨ID v.name v.node.Version, targets inherited v⟩
  else none

mutual
/-- The positions below the entries `es` of a mapping whose level stack is `levels`,
depth first, dev entries and their subtrees left out. -/
def visitEntries (levels : List DepMap) : List (String × Dependency) → List Visit
  | [] => []
  | (k, d) :: rest => visitDep levels k d ++ visitEntries levels rest
/-- The positions at and below one entry. -/
def visitDep (levels : List DepMap) (k : String) : Dependency → List Visit
  | .mk ver dev nested req =>
    if dev then []
    else
      ⟨levels, k, .mk ver dev nested req⟩ ::
        (match nested with
         | none => []
         | some ds => visitEntries (ds :: levels) ds)
end

/-- A lock tree in the shape of the `npmNormal` fixture: `promise` requires `asap`. -/
def normalLock : DepMap :=
  [("promise", .mk "8.0.3" false none [("asap", "~2.0.6")]),
   ("asap", .mk "2.0.7" false none []),
   ("jquery", .mk "3.4.0" false none [])]

/-- A lock tree in the shape of the `npmNested` fixture: `send` has its own `ms`, and
`debug` occurs at two positions with different versions. -/
def nestedLock : DepMap :=
  [("debug", .mk "2.6.9" false none [("ms", "2.0.0")]),
   ("ms", .mk "2.0.0" false none []),
   ("send", .mk "0.17.1" false
      (some [("ms", .mk "2.1.1" false none [])])
      [("debug", "2.6.9"), ("ms", "2.1.1")]),
   ("body", .mk "1.0.0" false
      (some [("debug", .mk "2.0.0" false
               (some [("ms", .mk "0.6.2" false none [])])
               [("ms", "0.6.2")])])
      [("debug", "2.0.0")])]

/-- A lock tree with a dev entry (`mocha`, with a nested `ms`) beside production
entries. -/
def devLock : DepMap :=
  [("react", .mk "16.8.6" false none [("loose-envify", "^1.1.0")]),
   ("loose-envify", .mk "1.4.0" false none []),
   ("mocha", .mk "6.1.4" true (some [("ms", .mk "2.1.1" true none [])]) [("ms", "2.1.1")])]

/-- The entry with the requirement named `r` removed from its `Requires`. -/
def dropRequire (r : String) : Dependency → Dependency
  | .mk ver dev nested req => .mk ver dev nested (req.filter (fun q => q.1 != r))

/-- The entry with its nested map, if any, replaced by its image under `f`. -/
def withNested (f : DepMap → DepMap) : Dependency → Dependency
  | .mk ver dev nested req => .mk ver dev (nested.map f) req

/-- The lock tree with the requirement named `r` removed from the `Requires` of the
entry at the end of a path. -/
def eraseReq (r : String) : List String → DepMap → DepMap
  | [], m => m
  | [n], m => m.map (fun e => if e.1 = n then (e.1, dropRequire r e.2) else e)
  | n :: a :: q, m =>
    m.map (fun e => if e.1 = n then (e.1, withNested (eraseReq r (a :: q)) e.2) else e)

/-- The string contains none of the characters `@`, `,` and `:`. -/
def cleanString (s : String) : Bool :=
  decide ('@' ∉ s.data ∧ ',' ∉ s.data ∧ ':' ∉ s.data)

mutual
/-- Every name and every version in the lock tree is free of `@`, `,` and `:`. -/
def cleanMap : List (String × Dependency) → Bool
  | [] => true
  | (k, d) :: rest => cleanString k && cleanDep d && cleanMap rest
/-- The version of the entry and every name and version below it is free of `@`, `,`
and `:`. -/
def cleanDep : Dependency → Bool
  | .mk ver _ none _ => cleanString ver
  | .mk ver _ (some ds) _ => cleanString ver && cleanMap ds
end

/-- A lock tree with an unresolvable requirement (`missing-pkg`). -/
def missingLock : DepMap :=
  [("app", .mk "1.0.0" false none [("missing-pkg", "^1.0.0"), ("lib", "^2.0.0")]),
   ("lib", .mk "2.0.0" false none [])]

/-- The position of `debug@2.0.0` below `body` in `nestedLock`. -/
def nestedDebugVisit : Visit :=
  ⟨[[("debug", .mk "2.0.0" false (some [("ms", .mk "0.6.2" false none [])])
        [("ms", "0.6.2")])],
    nestedLock],
   "debug", .mk "2.0.0" false (some [("ms", .mk "0.6.2" false none [])]) [("ms", "0.6.2")]⟩

/-- The entry a requirement `r` of the node at a position resolves to: the node's own
nested entry first, then the entry of the closest enclosing level. -/
def resolvedEntry (v : Visit) (r : String) : Option Dependency :=
  match v.node.Dependencies.bind (fun m => m.lookup r) with
  | some d => some d
  | none => v.levels.findSome? (fun m => m.lookup r)

/-- A lock tree in which the production entry `app` requires the dev entry `tool`. -/
def devRequiredLock : DepMap :=
  [("app", .mk "1.0.0" false none [("tool", "^2.0.0")]),
   ("tool", .mk "2.0.0" true none [])]

mutual
/-- No entry of the lock tree has `Dev = true`. -/
def devFreeMap : List (String × Dependency) → Bool
  | [] => true
  | (_, d) :: rest => devFreeDep d && devFreeMap rest
/-- Neither the entry nor any entry below it has `Dev = true`. -/
def devFreeDep : Dependency → Bool
  | .mk _ dev none _ => !dev
  | .mk _ dev (some ds) _ => !dev && devFreeMap ds
end

/-- The second loop of `parse` with the recursive call passed in as `call`; the result
is `none` when a recursive call does not return. -/
def loopWith (call : DepMap → Versions → Option Walk) (versions : Versions) :
    List (String × Dependency) → Option (List Library × List Edge)
  | [] => some ([], [])
  | (pkgName, dependency) :: rest =>
    if dependency.Dev then loopWith call versions rest
    else
      let lib : Library := ⟨pkgName, dependency.Version⟩
      let dependsOn :=
        resolveRequires dependency.Dependencies versions dependency.Requires
      let edge : List Edge :=
        if dependsOn.length > 0 then [⟨ID lib.Name lib.Version, dependsOn⟩] else []
      match dependency.Dependencies with
      | none =>
        (loopWith call versions rest).map (fun r => (lib :: r.1, edge ++ r.2))
      | some ds =>
        match call ds (clone versions) with
        | none => none
        | some child =>
          (loopWith call versions rest).map
            (fun r => (lib :: child.libs ++ r.1, edge ++ child.deps ++ r.2))

/-- Function `parse` as written in the source, one function calling itself, run with a
bound `fuel` on the depth of nested calls; `none` when the bound is exceeded. -/
def parseFuel : Nat → DepMap → Versions → Option Walk
  | 0, _, _ => none
  | fuel + 1, dependencies, versions =>
    let versions := recordVersions dependencies versions
    (loopWith (parseFuel fuel) versions dependencies).map
      (fun r => ⟨r.1, r.2, versions⟩)

mutual
/-- Nesting depth of the `Dependencies` maps below a mapping; `Requires` plays no part. -/
def depthMap : List (String × Dependency) → Nat
  | [] => 0
  | (_, d) :: rest => max (depthDep d) (depthMap rest)
/-- Nesting depth of the `Dependencies` maps at and below an entry. -/
def depthDep : Dependency → Nat
  | .mk _ _ none _ => 0
  | .mk _ _ (some ds) _ => depthMap ds + 1
end

/-- A lock tree whose `Requires` entries form a cycle: `a` requires `b` and `b` requires
`a`. -/
def cyclicLock : DepMap :=
  [("a", .mk "1.0.0" false none [("b", "^1.0.0")]),
   ("b", .mk "1.0.0" false none [("a", "^1.0.0")])]

mutual
/-- The second map holds the entries of the first in some order, each entry changed
only by reordering its `Requires` and, recursively, its nested map. -/
def mapPerm : List (String × Dependency) → DepMap → Prop
  | [], m2 => m2 = []
  | (k, d1) :: m1, m2 =>
    ∃ pre d2 post, m2 = pre ++ (k, d2) :: post ∧ depPerm d1 d2 ∧ mapPerm m1 (pre ++ post)
/-- The second entry is the first with `Requires` and the nested maps reordered. -/
def depPerm : Dependency → Dependency → Prop
  | .mk v1 dev1 none r1, d2 =>
    d2.Version = v1 ∧ d2.Dev = dev1 ∧ r1.Perm d2.Requires ∧ d2.Dependencies = none
  | .mk v1 dev1 (some n1) r1, d2 =>
    d2.Version = v1 ∧ d2.Dev = dev1 ∧ r1.Perm d2.Requires ∧
      ∃ n2, d2.Dependencies = some n2 ∧ mapPerm n1 n2
end

/-- The string contains neither `,` nor `:`. -/
def keySafe (s : String) : Bool :=
  decide (',' ∉ s.data ∧ ':' ∉ s.data)

mutual
/-- Every name and every version in the lock tree is free of `,` and `:`. -/
def safeMap : List (String × Dependency) → Bool
  | [] => true
  | (k, d) :: rest => keySafe k && safeDep d && safeMap rest
/-- The version of the entry and every name and version below it is free of `,` and
`:`. -/
def safeDep : Dependency → Bool
  | .mk ver _ none _ => keySafe ver
  | .mk ver _ (some ds) _ => keySafe ver && safeMap ds
end

/-- A lock tree in which two positions of `x@1` have edges with the same dedup key and
different targets: one requires `a` and `b`, the other the single package `a@1,b`. -/
def collisionLock : DepMap :=
  [("a", .mk "1" false none []),
   ("b", .mk "1" false none []),
   ("a@1,b", .mk "1" false none []),
   ("x", .mk "1" false none [("a", "*"), ("b", "*")]),
   ("q", .mk "1" false (some [("x", .mk "1" false none [("a@1,b", "*")])]) [])]

/-- The tree `collisionLock` with its last two entries in the opposite order. -/
def collisionLockSwapped : DepMap :=
  [("a", .mk "1" false none []),
   ("b", .mk "1" false none []),
   ("a@1,b", .mk "1" false none []),
   ("q", .mk "1" false (some [("x", .mk "1" false none [("a@1,b", "*")])]) []),
   ("x", .mk "1" false none [("a", "*"), ("b", "*")])]

/-- The tree `nestedLock` with the top-level entries and the `Requires` of `send` listed
in another order. -/
def nestedLockShuffled : DepMap :=
  [("ms", .mk "2.0.0" false none []),
   ("debug", .mk "2.6.9" false none [("ms", "2.0.0")]),
   ("send", .mk "0.17.1" false
      (some [("ms", .mk "2.1.1" false none [])])
      [("ms", "2.1.1"), ("debug", "2.6.9")]),
   ("body", .mk "1.0.0" false
      (some [("debug", .mk "2.0.0" false
               (some [("ms", .mk "0.6.2" false none [])])
               [("ms", "0.6.2")])])
      [("debug", "2.0.0")])]

/-! ## Theorems -/

/-- The loop shared by `unique` and `uniqueDeps`, started from any state whose key set
holds the keys of the elements `pre` already consumed. -/
theorem dedup_fold {α β κ : Type} [DecidableEq κ] (key : α → κ) (f : α → β) :
    ∀ (xs : List α) (acc : List β) (seen : List κ) (pre : List α),
      (∀ k, k ∈ seen ↔ k ∈ pre.map key) →
      (xs.foldl (fun (st : List β × List κ) x =>
          if key x ∈ st.2 then st else (st.1 ++ [f x], key x :: st.2)) (acc, seen)).1
        = acc ++ (xs.enumFrom pre.length).filterMap
            (fun p => if key p.2 ∈ ((pre ++ xs).take p.1).map key then none
                      else some (f p.2)) := by
  intro xs
  induction xs with
  | nil => intro acc seen pre _; simp
  | cons x xs ih =>
    intro acc seen pre h
    have hpre : (pre ++ x :: xs) = (pre ++ [x]) ++ xs := by simp
    have hlen : pre.length + 1 = (pre ++ [x]).length := by simp
    have htake : List.take pre.length (pre ++ x :: xs) = pre := by simp
    simp only [List.foldl_cons, List.enumFrom_cons, List.filterMap_cons, htake]
    by_cases hx : key x ∈ seen
    · have hx' : key x ∈ pre.map key := (h _).1 hx
      rw [if_pos hx, if_pos hx']
      rw [ih acc seen (pre ++ [x]) ?_, hpre, hlen]
      intro k
      rw [h k]
      simp only [List.map_append, List.mem_append, List.map_cons, List.map_nil,
        List.mem_singleton]
      constructor
      · exact Or.inl
      · rintro (hk | rfl)
        · exact hk
        · exact hx'
    · have hx' : key x ∉ pre.map key := fun hh => hx ((h _).2 hh)
      rw [if_neg hx, if_neg hx']
      rw [ih (acc ++ [f x]) (key x :: seen) (pre ++ [x]) ?_, hpre, hlen]
      · simp
      · intro k
        simp only [List.mem_cons, h k, List.map_append, List.mem_append, List.map_cons,
          List.map_nil, List.mem_singleton, List.not_mem_nil, or_false]
        tauto

theorem unique_eq_firstByKey (libs : List Library) : unique libs = firstByKey id libs := by
  have h := dedup_fold (fun (x : Library) => x) (fun (x : Library) => x) libs [] [] [] (by simp)
  simpa [unique, firstByKey, List.enum] using h

theorem firstByKey_nil {α κ : Type} [DecidableEq κ] (key : α → κ) :
    firstByKey key ([] : List α) = [] := by
  simp [firstByKey]

theorem firstByKey_snoc {α κ : Type} [DecidableEq κ] (key : α → κ) (xs : List α) (x : α) :
    firstByKey key (xs ++ [x])
      = firstByKey key xs ++ (if key x ∈ xs.map key then [] else [x]) := by
  unfold firstByKey
  rw [List.enum_append, List.filterMap_append]
  congr 1
  · apply List.filterMap_congr
    intro p hp
    have hlt : p.1 < xs.length := by
      have := List.fst_lt_of_mem_enum hp
      simpa using this
    rw [List.take_append_of_le_length (Nat.le_of_lt hlt)]
  · simp only [List.enumFrom_singleton, List.filterMap_cons, List.filterMap_nil,
      List.take_left']
    by_cases hx : key x ∈ xs.map key
    · simp [hx]
    · simp [hx]

theorem firstByKey_subset {α κ : Type} [DecidableEq κ] (key : α → κ) (xs : List α) :
    ∀ y ∈ firstByKey key xs, y ∈ xs := by
  induction xs using List.reverseRecOn with
  | nil => simp [firstByKey_nil]
  | append_singleton xs x ih =>
    intro y hy
    rw [firstByKey_snoc, List.mem_append] at hy
    rcases hy with hy | hy
    · exact List.mem_append_left _ (ih y hy)
    · split at hy
      · simp at hy
      · simp at hy; simp [hy]

theorem firstByKey_keys {α κ : Type} [DecidableEq κ] (key : α → κ) (xs : List α) :
    ∀ k, k ∈ (firstByKey key xs).map key ↔ k ∈ xs.map key := by
  induction xs using List.reverseRecOn with
  | nil => simp [firstByKey_nil]
  | append_singleton xs x ih =>
    intro k
    rw [firstByKey_snoc]
    by_cases hx : key x ∈ xs.map key
    · rw [if_pos hx]
      simp only [List.append_nil, ih k, List.map_append, List.mem_append, List.map_cons,
        List.map_nil, List.mem_singleton]
      constructor
      · exact Or.inl
      · rintro (h | rfl)
        · exact h
        · exact hx
    · rw [if_neg hx]
      simp only [List.map_append, List.mem_append, ih k]

theorem firstByKey_nodup {α κ : Type} [DecidableEq κ] (key : α → κ) (xs : List α) :
    ((firstByKey key xs).map key).Nodup := by
  induction xs using List.reverseRecOn with
  | nil => simp [firstByKey_nil]
  | append_singleton xs x ih =>
    rw [firstByKey_snoc]
    by_cases hx : key x ∈ xs.map key
    · rw [if_pos hx]; simpa using ih
    · rw [if_neg hx, List.map_append, List.nodup_append]
      refine ⟨ih, by simp, ?_⟩
      intro a ha hb
      simp only [List.map_cons, List.map_nil, List.mem_singleton] at hb
      subst hb
      exact hx ((firstByKey_keys key xs _).1 ha)

theorem mem_firstByKey {α κ : Type} [DecidableEq κ] (key : α → κ) (xs : List α) (y : α) :
    y ∈ firstByKey key xs ↔
      ∃ i, xs[i]? = some y ∧ key y ∉ (xs.take i).map key := by
  unfold firstByKey
  simp only [List.mem_filterMap, Prod.exists]
  constructor
  · rintro ⟨i, x, hmem, hif⟩
    split at hif
    · simp at hif
    · rename_i hnot
      simp only [Option.some.injEq] at hif
      subst hif
      exact ⟨i, (List.mem_enum_iff_getElem?).1 hmem, hnot⟩
  · rintro ⟨i, hget, hnot⟩
    exact ⟨i, y, (List.mem_enum_iff_getElem?).2 hget, by rw [if_neg hnot]⟩

theorem leChars_total : ∀ a b : List Char, leChars a b = true ∨ leChars b a = true
  | [], _ => by simp [leChars]
  | _ :: _, [] => by simp [leChars]
  | a :: as, b :: bs => by
    simp only [leChars]
    rcases Nat.lt_trichotomy a.toNat b.toNat with h | h | h
    · simp [h]
    · simp [h, leChars_total as bs]
    · simp [h]

theorem leChars_trans : ∀ a b c : List Char,
    leChars a b = true → leChars b c = true → leChars a c = true
  | [], _, _ => by simp [leChars]
  | _ :: _, [], _ => by simp [leChars]
  | _ :: _, _ :: _, [] => by simp [leChars]
  | a :: as, b :: bs, c :: cs => by
    simp only [leChars]
    intro h1 h2
    split at h1
    · rename_i hab
      split at h2
      · rename_i hbc
        simp [Nat.lt_trans hab hbc]
      · split at h2
        · simp at h2
        · have : a.toNat < c.toNat := by omega
          simp [this]
    · split at h1
      · simp at h1
      · split at h2
        · have : a.toNat < c.toNat := by omega
          simp [this]
        · split at h2
          · simp at h2
          · have h3 : ¬ a.toNat < c.toNat := by omega
            have h4 : ¬ c.toNat < a.toNat := by omega
            simp only [h3, h4, if_false]
            exact leChars_trans as bs cs h1 h2

theorem leChars_antisymm : ∀ a b : List Char,
    leChars a b = true → leChars b a = true → a = b
  | [], [] => by simp
  | [], _ :: _ => by simp [leChars]
  | _ :: _, [] => by simp [leChars]
  | a :: as, b :: bs => by
    simp only [leChars]
    intro h1 h2
    split at h1
    · rename_i hab
      have : ¬ b.toNat < a.toNat := by omega
      simp [this, hab] at h2
    · split at h1
      · simp at h1
      · rename_i h3 h4
        simp only [h3, h4, if_false] at h2
        have hn : a.toNat = b.toNat := by omega
        have hc : a = b := by rw [← Char.ofNat_toNat a, ← Char.ofNat_toNat b, hn]
        rw [hc, leChars_antisymm as bs h1 h2]

theorem sortStrings_perm (xs : List String) : (sortStrings xs).Perm xs :=
  List.perm_insertionSort StrLE xs

theorem sortStrings_sorted (xs : List String) : (sortStrings xs).Sorted StrLE :=
  haveI : IsTotal String StrLE := ⟨fun a b => leChars_total a.data b.data⟩
  haveI : IsTrans String StrLE := ⟨fun a b c => leChars_trans a.data b.data c.data⟩
  List.sorted_insertionSort StrLE xs

theorem sortStrings_eq_of_perm {xs ys : List String} (h : xs.Perm ys) :
    sortStrings xs = sortStrings ys :=
  haveI : IsAntisymm String StrLE :=
    ⟨fun a b h1 h2 => String.ext (leChars_antisymm a.data b.data h1 h2)⟩
  List.eq_of_perm_of_sorted
    (((sortStrings_perm xs).trans h).trans (sortStrings_perm ys).symm)
    (sortStrings_sorted xs) (sortStrings_sorted ys)

theorem uniqueDeps_eq_firstByKey (deps : List Edge) :
    uniqueDeps deps = (firstByKey depKey deps).map sortedEdge := by
  show (deps.foldl (fun (st : List Edge × List String) x =>
          if depKey x ∈ st.2 then st else (st.1 ++ [sortedEdge x], depKey x :: st.2))
          ([], [])).1 = _
  rw [dedup_fold depKey sortedEdge deps [] [] [] (by simp)]
  simp only [List.nil_append, List.length_nil, firstByKey, List.enum, List.map_filterMap]
  apply List.filterMap_congr
  intro p _
  by_cases hc : depKey p.2 ∈ List.map depKey (List.take p.1 deps)
  · rw [if_pos hc, if_pos hc]; rfl
  · rw [if_neg hc, if_neg hc]; rfl

theorem intercalate_go_data (sep : String) :
    ∀ (l : List String) (acc : String),
      (String.intercalate.go acc sep l).data
        = acc.data ++ (l.map (fun a => sep.data ++ a.data)).flatten
  | [], acc => by simp [String.intercalate.go]
  | a :: l, acc => by
    simp [String.intercalate.go, intercalate_go_data sep l, String.data_append]

theorem join_sep_eq (sep : List Char) : ∀ (a : List Char) (l : List (List Char)),
    a ++ (l.map (fun b => sep ++ b)).flatten = sep.intercalate (a :: l)
  | a, [] => by simp [List.intercalate]
  | a, b :: l => by
    have ih := join_sep_eq sep b l
    simp only [List.intercalate] at ih ⊢
    simp only [List.map_cons, List.flatten_cons, List.intersperse_cons₂, List.append_assoc]
    rw [ih]

theorem intercalate_data (sep : String) (l : List String) :
    (sep.intercalate l).data = sep.data.intercalate (l.map String.data) := by
  cases l with
  | nil => simp [String.intercalate, List.intercalate]
  | cons a l =>
    simp only [String.intercalate, intercalate_go_data, List.map_cons]
    rw [← join_sep_eq]
    simp [List.map_map, Function.comp_def]

theorem split_at_colon : ∀ (a b x y : List Char), ':' ∉ a → ':' ∉ b →
    a ++ ':' :: x = b ++ ':' :: y → a = b ∧ x = y
  | [], [], x, y, _, _, h => by simpa using h
  | [], c :: b, x, y, _, hb, h => by
    simp only [List.nil_append, List.cons_append, List.cons.injEq] at h
    exact absurd h.1 (by intro hc; apply hb; simp [← hc])
  | c :: a, [], x, y, ha, _, h => by
    simp only [List.nil_append, List.cons_append, List.cons.injEq] at h
    exact absurd h.1 (by intro hc; apply ha; simp [hc])
  | c :: a, d :: b, x, y, ha, hb, h => by
    simp only [List.cons_append, List.cons.injEq] at h
    have := split_at_colon a b x y (fun hh => ha (List.mem_cons_of_mem _ hh))
      (fun hh => hb (List.mem_cons_of_mem _ hh)) h.2
    simp [h.1, this.1, this.2]

theorem intercalate_comma_inj (l1 l2 : List (List Char))
    (h1 : ∀ t ∈ l1, t ≠ [] ∧ ',' ∉ t) (h2 : ∀ t ∈ l2, t ≠ [] ∧ ',' ∉ t)
    (h : [','].intercalate l1 = [','].intercalate l2) : l1 = l2 := by
  have hne : ∀ l : List (List Char), (∀ t ∈ l, t ≠ [] ∧ ',' ∉ t) → l ≠ [] →
      [','].intercalate l ≠ [] := by
    intro l hl hnil
    cases l with
    | nil => exact absurd rfl hnil
    | cons a l =>
      rw [← join_sep_eq]
      have := (hl a (List.mem_cons_self _ _)).1
      simp [this]
  by_cases e1 : l1 = []
  · by_cases e2 : l2 = []
    · rw [e1, e2]
    · exfalso
      apply hne l2 h2 e2
      rw [← h, e1]; rfl
  · by_cases e2 : l2 = []
    · exfalso
      apply hne l1 h1 e1
      rw [h, e2]; rfl
    · have s1 := List.splitOn_intercalate l1 ',' (fun l hl => (h1 l hl).2) e1
      have s2 := List.splitOn_intercalate l2 ',' (fun l hl => (h2 l hl).2) e2
      rw [← s1, ← s2, h]

theorem mem_sortStrings (xs : List String) (t : String) : t ∈ sortStrings xs ↔ t ∈ xs :=
  (sortStrings_perm xs).mem_iff

theorem sortStrings_idem (xs : List String) : sortStrings (sortStrings xs) = sortStrings xs :=
  sortStrings_eq_of_perm (sortStrings_perm xs)

theorem depKey_sortedEdge (d : Edge) : depKey (sortedEdge d) = depKey d := by
  simp [depKey, sortedEdge, sortStrings_idem]

theorem depKey_inj (d e : Edge) (hd : CleanEdge d) (he : CleanEdge e)
    (h : depKey d = depKey e) :
    d.ID = e.ID ∧ sortStrings d.DependsOn = sortStrings e.DependsOn := by
  have h' := congrArg String.data h
  simp only [depKey, String.data_append, intercalate_data, List.append_assoc] at h'
  simp only [List.singleton_append] at h'
  obtain ⟨hid, hrest⟩ := split_at_colon _ _ _ _ hd.1 he.1 h'
  have clean : ∀ x : Edge, CleanEdge x →
      ∀ t ∈ (sortStrings x.DependsOn).map String.data, t ≠ [] ∧ ',' ∉ t := by
    intro x hx t ht
    obtain ⟨s, hs, rfl⟩ := List.mem_map.1 ht
    have := hx.2 s ((mem_sortStrings _ _).1 hs)
    refine ⟨fun hnil => this.1 (String.ext (by simpa using hnil)), this.2⟩
  have hl := intercalate_comma_inj _ _ (clean d hd) (clean e he) hrest
  refine ⟨String.ext hid, ?_⟩
  exact List.map_injective_iff.2 (fun a b hab => String.ext hab) hl

theorem dedup_fold_seen {α β κ : Type} [DecidableEq κ] (key : α → κ) (f : α → β) :
    ∀ (xs : List α) (st : List β × List κ),
      (∀ k ∈ st.2, k ∈ (xs.foldl (fun (st : List β × List κ) x =>
          if key x ∈ st.2 then st else (st.1 ++ [f x], key x :: st.2)) st).2) ∧
      (∀ x ∈ xs, key x ∈ (xs.foldl (fun (st : List β × List κ) x =>
          if key x ∈ st.2 then st else (st.1 ++ [f x], key x :: st.2)) st).2) := by
  intro xs
  induction xs with
  | nil => intro st; simp
  | cons x xs ih =>
    intro st
    simp only [List.foldl_cons]
    by_cases hx : key x ∈ st.2
    · rw [if_pos hx]
      refine ⟨(ih st).1, ?_⟩
      intro y hy
      rcases List.mem_cons.1 hy with rfl | hy
      · exact (ih st).1 _ hx
      · exact (ih st).2 y hy
    · rw [if_neg hx]
      refine ⟨fun k hk => (ih _).1 k (List.mem_cons_of_mem _ hk), ?_⟩
      intro y hy
      rcases List.mem_cons.1 hy with rfl | hy
      · exact (ih _).1 _ (List.mem_cons_self _ _)
      · exact (ih _).2 y hy

theorem uniqueDeps_skip (as bs : List Edge) (e : Edge)
    (h : depKey e ∈ as.map depKey) :
    uniqueDeps (as ++ e :: bs) = uniqueDeps (as ++ bs) := by
  show (List.foldl (fun (st : List Edge × List String) x =>
          if depKey x ∈ st.2 then st else (st.1 ++ [sortedEdge x], depKey x :: st.2))
          ([], []) (as ++ e :: bs)).1 =
       (List.foldl (fun (st : List Edge × List String) x =>
          if depKey x ∈ st.2 then st else (st.1 ++ [sortedEdge x], depKey x :: st.2))
          ([], []) (as ++ bs)).1
  rw [List.foldl_append, List.foldl_append, List.foldl_cons]
  obtain ⟨a, ha, hk⟩ := List.mem_map.1 h
  have := (dedup_fold_seen depKey sortedEdge as ([], [])).2 a ha
  rw [hk] at this
  rw [if_pos this]

theorem unique_nodup (libs : List Library) : (unique libs).Nodup := by
  have := firstByKey_nodup (fun (x : Library) => x) libs
  rw [unique_eq_firstByKey]
  simpa using this

theorem mem_unique (libs : List Library) (x : Library) : x ∈ unique libs ↔ x ∈ libs := by
  have := firstByKey_keys (fun (x : Library) => x) libs x
  rw [unique_eq_firstByKey]
  simpa using this

/-- C7: `unique` returns no pair twice, returns exactly the pairs of its input, and
lists them in the order of their first occurrences: it is the input with every element
that occurs earlier in the input removed. -/
theorem unique_first_occurrences (libs : List Library) :
    (unique libs).Nodup ∧ (∀ x, x ∈ unique libs ↔ x ∈ libs) ∧
      unique libs = firstByKey id libs :=
  ⟨unique_nodup libs, mem_unique libs, unique_eq_firstByKey libs⟩

/-- C8: when an edge `e2` comes after an edge `e1` with the same source and a
permutation of its targets, `uniqueDeps` drops `e2` (the result is the one obtained
without `e2`), the keys of the output are pairwise distinct, and `uniqueDeps [e1, e2]`
has exactly one element. -/
theorem uniqueDeps_drops_permuted (pre mid post : List Edge) (e1 e2 : Edge)
    (hid : e1.ID = e2.ID) (hperm : e1.DependsOn.Perm e2.DependsOn) :
    uniqueDeps (pre ++ e1 :: mid ++ e2 :: post) = uniqueDeps (pre ++ e1 :: mid ++ post) ∧
      ((uniqueDeps (pre ++ e1 :: mid ++ e2 :: post)).map depKey).Nodup ∧
      (uniqueDeps [e1, e2]).length = 1 := by
  have hkey : depKey e2 = depKey e1 := by
    simp [depKey, hid, sortStrings_eq_of_perm hperm]
  refine ⟨?_, ?_, ?_⟩
  · apply uniqueDeps_skip
    rw [hkey]
    simp
  · rw [uniqueDeps_eq_firstByKey, List.map_map]
    have : depKey ∘ sortedEdge = depKey := funext depKey_sortedEdge
    rw [this]
    exact firstByKey_nodup depKey _
  · have h := uniqueDeps_skip [e1] [] e2 (by simp [hkey])
    simp only [List.singleton_append, List.append_nil] at h
    rw [h, uniqueDeps_eq_firstByKey]
    simp [firstByKey]

theorem uniqueDeps_drops_permuted_witness :
    uniqueDeps ([] ++ (⟨"a", ["x", "y"]⟩ : Edge) :: [] ++ ⟨"a", ["y", "x"]⟩ :: [])
        = uniqueDeps ([] ++ (⟨"a", ["x", "y"]⟩ : Edge) :: [] ++ []) ∧
      ((uniqueDeps ([] ++ (⟨"a", ["x", "y"]⟩ : Edge) :: [] ++ ⟨"a", ["y", "x"]⟩ :: [])).map
        depKey).Nodup ∧
      (uniqueDeps [(⟨"a", ["x", "y"]⟩ : Edge), ⟨"a", ["y", "x"]⟩]).length = 1 :=
  uniqueDeps_drops_permuted [] [] [] ⟨"a", ["x", "y"]⟩ ⟨"a", ["y", "x"]⟩ rfl
    (List.Perm.swap _ _ _)

/-- C9 (as stated, refuted): the only output edge for the single input edge
`a -> [c, b]` carries the targets `[b, c]`, not the input order. -/
theorem uniqueDeps_reorders_targets :
    ∃ e ∈ uniqueDeps [⟨"a", ["c", "b"]⟩],
      ∀ d ∈ [(⟨"a", ["c", "b"]⟩ : Edge)], e.DependsOn ≠ d.DependsOn :=
  ⟨⟨"a", ["b", "c"]⟩, by decide, by decide⟩

/-- C9 (amended): every edge in the output of `uniqueDeps` is the first input edge with
its dedup key, carrying that edge's source and its targets sorted in ascending order (a
permutation of the input edge's targets); the output lists these edges in input
order. -/
theorem uniqueDeps_first_occurrence_sorted (deps : List Edge) :
    uniqueDeps deps = (firstByKey depKey deps).map sortedEdge ∧
      ∀ e ∈ uniqueDeps deps, ∃ i d, deps[i]? = some d ∧
        depKey d ∉ (deps.take i).map depKey ∧
        e.ID = d.ID ∧ e.DependsOn = sortStrings d.DependsOn ∧
        e.DependsOn.Sorted StrLE ∧ e.DependsOn.Perm d.DependsOn ∧
        depKey e = depKey d := by
  refine ⟨uniqueDeps_eq_firstByKey deps, ?_⟩
  intro e he
  rw [uniqueDeps_eq_firstByKey] at he
  obtain ⟨d, hd, rfl⟩ := List.mem_map.1 he
  obtain ⟨i, hget, hnot⟩ := (mem_firstByKey depKey deps d).1 hd
  exact ⟨i, d, hget, hnot, rfl, rfl, sortStrings_sorted d.DependsOn,
    sortStrings_perm d.DependsOn, depKey_sortedEdge d⟩

/-- C10 (as stated, refuted): the edges `x -> [a,b]` (one target containing a comma) and
`x -> [a, b]` have the same source and different target sets, yet the output has no edge
with the target set of the second. -/
theorem uniqueDeps_merges_on_key_collision :
    (⟨"x", ["a,b"]⟩ : Edge).ID = (⟨"x", ["a", "b"]⟩ : Edge).ID ∧
      ¬ (∀ t, t ∈ (⟨"x", ["a,b"]⟩ : Edge).DependsOn ↔
          t ∈ (⟨"x", ["a", "b"]⟩ : Edge).DependsOn) ∧
      ¬ ∃ o ∈ uniqueDeps [⟨"x", ["a,b"]⟩, ⟨"x", ["a", "b"]⟩],
          ∀ t, t ∈ o.DependsOn ↔ t ∈ (⟨"x", ["a", "b"]⟩ : Edge).DependsOn := by
  refine ⟨rfl, ?_, ?_⟩
  · intro h
    have := (h "a").2 (by decide)
    revert this
    decide
  · rintro ⟨o, ho, h⟩
    have hu : uniqueDeps [⟨"x", ["a,b"]⟩, ⟨"x", ["a", "b"]⟩] = [⟨"x", ["a,b"]⟩] := by decide
    rw [hu] at ho
    have ho' : o = ⟨"x", ["a,b"]⟩ := by simpa using ho
    subst ho'
    have := (h "a").2 (by decide)
    revert this
    decide

theorem uniqueDeps_rep (deps : List Edge) (hclean : ∀ d ∈ deps, CleanEdge d)
    (e : Edge) (he : e ∈ deps) :
    ∃ o ∈ uniqueDeps deps, o.ID = e.ID ∧ ∀ t, t ∈ o.DependsOn ↔ t ∈ e.DependsOn := by
  have hk : depKey e ∈ (firstByKey depKey deps).map depKey :=
    (firstByKey_keys depKey deps _).2 (List.mem_map_of_mem _ he)
  obtain ⟨d, hd, hdk⟩ := List.mem_map.1 hk
  have hdm : d ∈ deps := firstByKey_subset depKey deps d hd
  obtain ⟨hID, hsort⟩ := depKey_inj d e (hclean d hdm) (hclean e he) hdk
  refine ⟨sortedEdge d, ?_, hID, ?_⟩
  · rw [uniqueDeps_eq_firstByKey]
    exact List.mem_map_of_mem _ hd
  · intro t
    show t ∈ sortStrings d.DependsOn ↔ _
    rw [hsort, mem_sortStrings]

/-- C10 (amended): when every input edge has a source without `:` and targets that are
non-empty and without `,`, two input edges with equal source and different target sets
are both represented in the output of `uniqueDeps`, by two distinct edges with that
source, one with each of the two target sets. -/
theorem uniqueDeps_keeps_distinct_target_sets (deps : List Edge) (e1 e2 : Edge)
    (hclean : ∀ d ∈ deps, CleanEdge d)
    (h1 : e1 ∈ deps) (h2 : e2 ∈ deps) (_hid : e1.ID = e2.ID)
    (hdiff : ¬ ∀ t, t ∈ e1.DependsOn ↔ t ∈ e2.DependsOn) :
    ∃ o1 ∈ uniqueDeps deps, ∃ o2 ∈ uniqueDeps deps,
      o1.ID = e1.ID ∧ (∀ t, t ∈ o1.DependsOn ↔ t ∈ e1.DependsOn) ∧
      o2.ID = e2.ID ∧ (∀ t, t ∈ o2.DependsOn ↔ t ∈ e2.DependsOn) ∧ o1 ≠ o2 := by
  obtain ⟨o1, ho1, hi1, hs1⟩ := uniqueDeps_rep deps hclean e1 h1
  obtain ⟨o2, ho2, hi2, hs2⟩ := uniqueDeps_rep deps hclean e2 h2
  refine ⟨o1, ho1, o2, ho2, hi1, hs1, hi2, hs2, ?_⟩
  intro heq
  apply hdiff
  intro t
  rw [← hs1, ← hs2, heq]

theorem uniqueDeps_keeps_distinct_target_sets_witness :
    ∃ o1 ∈ uniqueDeps [⟨"x", ["a"]⟩, ⟨"x", ["b"]⟩],
      ∃ o2 ∈ uniqueDeps [⟨"x", ["a"]⟩, ⟨"x", ["b"]⟩],
      o1.ID = (⟨"x", ["a"]⟩ : Edge).ID ∧
      (∀ t, t ∈ o1.DependsOn ↔ t ∈ (⟨"x", ["a"]⟩ : Edge).DependsOn) ∧
      o2.ID = (⟨"x", ["b"]⟩ : Edge).ID ∧
      (∀ t, t ∈ o2.DependsOn ↔ t ∈ (⟨"x", ["b"]⟩ : Edge).DependsOn) ∧ o1 ≠ o2 :=
  uniqueDeps_keeps_distinct_target_sets [⟨"x", ["a"]⟩, ⟨"x", ["b"]⟩] ⟨"x", ["a"]⟩ ⟨"x", ["b"]⟩
    (by
      intro d hd
      simp only [List.mem_cons, List.mem_singleton, List.not_mem_nil, or_false] at hd
      rcases hd with rfl | rfl <;> simp [CleanEdge])
    (by simp) (by simp) rfl
    (by
      intro h
      have := (h "a").1 (by simp)
      revert this
      decide)

theorem lookup_filter_ne (k r : String) (h : r ≠ k) : ∀ vs : Versions,
    (vs.filter (fun e => e.1 != k)).lookup r = vs.lookup r
  | [] => rfl
  | (a, b) :: vs => by
    have ih := lookup_filter_ne k r h vs
    by_cases ha : a = k
    · subst ha
      have hr : (r == a) = false := by simpa using h
      simp [List.filter, List.lookup, hr, ih]
    · have hak : (a != k) = true := by simpa using ha
      simp only [List.filter, hak, List.lookup]
      rw [ih]

theorem lookup_setVersion (vs : Versions) (k v r : String) :
    (setVersion vs k v).lookup r = if r = k then some v else vs.lookup r := by
  unfold setVersion
  by_cases h : r = k
  · subst h; simp [List.lookup]
  · have hb : (r == k) = false := by simpa using h
    rw [if_neg h]
    simp only [List.lookup, hb]
    exact lookup_filter_ne k r h vs

theorem lookup_recordVersions : ∀ (m : DepMap) (vs : Versions) (r : String),
    (m.map Prod.fst).Nodup →
    (recordVersions m vs).lookup r =
      match m.lookup r with
      | some d => some d.Version
      | none => vs.lookup r
  | [], vs, r, _ => by simp [recordVersions]
  | (k, d) :: rest, vs, r, hnd => by
    have hnd' : k ∉ rest.map Prod.fst ∧ (rest.map Prod.fst).Nodup := by
      simpa using hnd
    have ih := lookup_recordVersions rest (setVersion vs k d.Version) r hnd'.2
    unfold recordVersions at ih ⊢
    rw [List.foldl_cons, ih, lookup_setVersion]
    by_cases h : r = k
    · subst h
      have : rest.lookup r = none := by
        rw [List.lookup_eq_none_iff]
        intro e he
        have : r ≠ e.1 := fun hk => hnd'.1 (List.mem_map.2 ⟨e, he, hk.symm⟩)
        simpa using this
      simp [this, List.lookup]
    · have hb : (r == k) = false := by simpa using h
      simp [List.lookup, hb, h]

theorem wfMap_cons (k : String) (d : Dependency) (rest : DepMap) :
    wfMap ((k, d) :: rest) = true ↔
      k ∉ rest.map Prod.fst ∧ wfDep d = true ∧ wfMap rest = true := by
  simp [wfMap, and_assoc]

theorem wfMap_nodup : ∀ m : DepMap, wfMap m = true → (m.map Prod.fst).Nodup
  | [], _ => by simp
  | (k, d) :: rest, h => by
    obtain ⟨h1, _, h3⟩ := (wfMap_cons k d rest).1 h
    simp only [List.map_cons, List.nodup_cons]
    exact ⟨h1, wfMap_nodup rest h3⟩

theorem wfMap_mem : ∀ (m : DepMap) (e : String × Dependency),
    wfMap m = true → e ∈ m → wfDep e.2 = true
  | [], _, _, he => by simp at he
  | (k, d) :: rest, e, h, he => by
    obtain ⟨_, h2, h3⟩ := (wfMap_cons k d rest).1 h
    rcases List.mem_cons.1 he with rfl | he
    · exact h2
    · exact wfMap_mem rest e h3 he

theorem resolveRequires_eq (nested : Option DepMap) (vs : Versions) :
    ∀ req : List (String × String),
      resolveRequires nested vs req =
        req.filterMap (fun q =>
          (match nested.bind (fun m => m.lookup q.1) with
           | some d => some d.Version
           | none => vs.lookup q.1).map (ID q.1))
  | [] => rfl
  | (libName, rng) :: rest => by
    have ih := resolveRequires_eq nested vs rest
    unfold resolveRequires
    simp only [List.filterMap_cons]
    cases h1 : nested.bind (fun m => m.lookup libName) with
    | some d => simp [ih]
    | none =>
      cases h2 : vs.lookup libName with
      | some ver => simp [ih]
      | none => simp [ih]

theorem resolveRequires_targets (inh : Versions) (levels : List DepMap) (k : String)
    (d : Dependency) (vs : Versions)
    (hs : ∀ r, vs.lookup r = scopeVersion inh levels r) :
    resolveRequires d.Dependencies vs d.Requires = targets inh ⟨levels, k, d⟩ := by
  rw [resolveRequires_eq]
  unfold targets resolvedVersion
  simp only [hs]

theorem parseDep_recursion (k ver : String) (ds : DepMap) (req : List (String × String))
    (vs : Versions) :
    parseDep k (.mk ver false (some ds) req) vs =
      ⟨⟨k, ver⟩ :: (parse ds (clone vs)).libs,
       (if (resolveRequires (some ds) vs req).length > 0 then
          [⟨ID k ver, resolveRequires (some ds) vs req⟩]
        else []) ++ (parse ds (clone vs)).deps,
       vs⟩ := by
  simp [parseDep, parse]

theorem parseDep_versions (k : String) (d : Dependency) (vs : Versions) :
    (parseDep k d vs).versions = vs := by
  obtain ⟨ver, dev, nested, req⟩ := d
  unfold parseDep
  cases dev <;> cases nested <;> simp

theorem filterMap_cons_toList {α β : Type} (f : α → Option β) (a : α) (l : List α) :
    List.filterMap f (a :: l) = (f a).toList ++ List.filterMap f l := by
  cases h : f a <;> simp [List.filterMap_cons, h]

theorem edgeOf_toList (inh : Versions) (v : Visit) :
    (edgeOf inh v).toList =
      if (targets inh v).length > 0 then [⟨ID v.name v.node.Version, targets inh v⟩]
      else [] := by
  unfold edgeOf
  split <;> rfl

mutual
theorem parseEntries_spec (inh : Versions) :
    ∀ (es : List (String × Dependency)) (levels : List DepMap) (vs : Versions),
      wfMap es = true → (∀ r, vs.lookup r = scopeVersion inh levels r) →
      parseEntries es vs =
        ⟨(visitEntries levels es).map libOf,
         (visitEntries levels es).filterMap (edgeOf inh), vs⟩
  | [], levels, vs, _, _ => by simp [parseEntries, visitEntries]
  | (k, d) :: rest, levels, vs, hwf, hs => by
    obtain ⟨_, h2, h3⟩ := (wfMap_cons k d rest).1 hwf
    have hd := parseDep_spec inh d k levels vs h2 hs
    have hr := parseEntries_spec inh rest levels vs h3 hs
    simp only [parseEntries, visitEntries, hd, hr, List.map_append, List.filterMap_append]
theorem parseDep_spec (inh : Versions) :
    ∀ (d : Dependency) (k : String) (levels : List DepMap) (vs : Versions),
      wfDep d = true → (∀ r, vs.lookup r = scopeVersion inh levels r) →
      parseDep k d vs =
        ⟨(visitDep levels k d).map libOf,
         (visitDep levels k d).filterMap (edgeOf inh), vs⟩
  | .mk ver dev nested req, k, levels, vs, hwf, hs => by
    have ht := resolveRequires_targets inh levels k (.mk ver dev nested req) vs hs
    simp only [Dependency.Dependencies, Dependency.Requires] at ht
    cases dev with
    | true => simp [parseDep, visitDep]
    | false =>
      cases nested with
      | none =>
        simp only [parseDep, visitDep, ht]
        simp only [Bool.false_eq_true, if_false, filterMap_cons_toList, edgeOf_toList]
        simp [libOf, Dependency.Version]
      | some ds =>
        have hwf' : wfMap ds = true := by simpa [wfDep] using hwf
        have hs' : ∀ r, (recordVersions ds (clone vs)).lookup r
            = scopeVersion inh (ds :: levels) r := by
          intro r
          rw [clone, lookup_recordVersions ds vs r (wfMap_nodup ds hwf'), hs]
          rfl
        have hc := parseEntries_spec inh ds (ds :: levels) _ hwf' hs'
        simp only [parseDep, visitDep, ht, hc]
        simp only [Bool.false_eq_true, if_false, filterMap_cons_toList, edgeOf_toList]
        simp [libOf, Dependency.Version]
end

theorem mem_of_lookup : ∀ (m : DepMap) (k : String) (d : Dependency),
    m.lookup k = some d → (k, d) ∈ m
  | [], _, _, h => by simp at h
  | (a, b) :: rest, k, d, h => by
    by_cases hk : k = a
    · subst hk
      simp [List.lookup] at h
      simp [h]
    · have hb : (k == a) = false := by simpa using hk
      simp only [List.lookup, hb] at h
      exact List.mem_cons_of_mem _ (mem_of_lookup rest k d h)

theorem lookup_of_mem : ∀ (m : DepMap) (k : String) (d : Dependency),
    (m.map Prod.fst).Nodup → (k, d) ∈ m → m.lookup k = some d
  | [], _, _, _, h => by simp at h
  | (a, b) :: rest, k, d, hnd, h => by
    have hnd' : a ∉ rest.map Prod.fst ∧ (rest.map Prod.fst).Nodup := by simpa using hnd
    rcases List.mem_cons.1 h with heq | hmem
    · cases heq
      simp [List.lookup]
    · have hk : k ≠ a := by
        rintro rfl
        exact hnd'.1 (List.mem_map.2 ⟨(k, d), hmem, rfl⟩)
      have hb : (k == a) = false := by simpa using hk
      simp only [List.lookup, hb]
      exact lookup_of_mem rest k d hnd'.2 hmem

theorem mem_visitDep (L : List DepMap) (k : String) (d : Dependency) (v : Visit) :
    v ∈ visitDep L k d ↔
      d.Dev = false ∧ (v = ⟨L, k, d⟩ ∨
        ∃ ds, d.Dependencies = some ds ∧ v ∈ visitEntries (ds :: L) ds) := by
  obtain ⟨ver, dev, nested, req⟩ := d
  cases dev <;> cases nested <;>
    simp [visitDep, Dependency.Dev, Dependency.Dependencies]

theorem mem_visitEntries (L : List DepMap) (v : Visit) : ∀ es : List (String × Dependency),
    v ∈ visitEntries L es ↔ ∃ e ∈ es, v ∈ visitDep L e.1 e.2
  | [] => by simp [visitEntries]
  | (k, d) :: rest => by
    simp [visitEntries, mem_visitEntries L v rest]

theorem nodeAt_one (lv : List DepMap) (m : DepMap) (n : String) (d : Dependency)
    (h : m.lookup n = some d) (hd : d.Dev = false) :
    nodeAt lv m [n] = some ⟨m :: lv, n, d⟩ := by
  simp [nodeAt, h, hd]

theorem nodeAt_step (lv : List DepMap) (m ds : DepMap) (n : String) (d : Dependency)
    (p : List String) (hp : p ≠ [])
    (h : m.lookup n = some d) (hd : d.Dev = false) (hds : d.Dependencies = some ds) :
    nodeAt lv m (n :: p) = nodeAt (m :: lv) ds p := by
  cases p with
  | nil => exact absurd rfl hp
  | cons a p => simp [nodeAt, h, hd, hds]

theorem nodeAt_ne_nil (lv : List DepMap) (m : DepMap) (p : List String) (v : Visit)
    (h : nodeAt lv m p = some v) : p ≠ [] := by
  rintro rfl
  simp [nodeAt] at h

mutual
theorem visitEntries_path :
    ∀ (es : List (String × Dependency)) (L : List DepMap) (v : Visit),
      wfMap es = true → v ∈ visitEntries L es →
      ∃ e ∈ es, e.2.Dev = false ∧ (v = ⟨L, e.1, e.2⟩ ∨
        ∃ ds p, e.2.Dependencies = some ds ∧ nodeAt L ds p = some v)
  | [], _, _, _, h => by simp [visitEntries] at h
  | (k, d) :: rest, L, v, hwf, h => by
    obtain ⟨_, h2, h3⟩ := (wfMap_cons k d rest).1 hwf
    simp only [visitEntries, List.mem_append] at h
    rcases h with h | h
    · exact ⟨(k, d), List.mem_cons_self _ _, visitDep_path d k L v h2 h⟩
    · obtain ⟨e, he, hx⟩ := visitEntries_path rest L v h3 h
      exact ⟨e, List.mem_cons_of_mem _ he, hx⟩
theorem visitDep_path :
    ∀ (d : Dependency) (k : String) (L : List DepMap) (v : Visit),
      wfDep d = true → v ∈ visitDep L k d →
      d.Dev = false ∧ (v = ⟨L, k, d⟩ ∨
        ∃ ds p, d.Dependencies = some ds ∧ nodeAt L ds p = some v)
  | .mk ver dev nested req, k, L, v, hwf, h => by
    cases dev with
    | true => simp [visitDep] at h
    | false =>
      refine ⟨rfl, ?_⟩
      cases nested with
      | none =>
        left
        simpa [visitDep] using h
      | some ds =>
        have hwf' : wfMap ds = true := by simpa [wfDep] using hwf
        simp only [visitDep, Bool.false_eq_true, if_false, List.mem_cons] at h
        rcases h with h | h
        · exact Or.inl h
        · right
          obtain ⟨e, he, hdev, hx⟩ := visitEntries_path ds (ds :: L) v hwf' h
          have hl : ds.lookup e.1 = some e.2 :=
            lookup_of_mem ds e.1 e.2 (wfMap_nodup ds hwf') he
          rcases hx with hx | ⟨ds', p', hds', hp'⟩
          · exact ⟨ds, [e.1], rfl, by rw [nodeAt_one L ds e.1 e.2 hl hdev, hx]⟩
          · refine ⟨ds, e.1 :: p', rfl, ?_⟩
            rw [nodeAt_step L ds ds' e.1 e.2 p' (nodeAt_ne_nil _ _ _ _ hp') hl hdev hds']
            exact hp'
end

theorem path_visitEntries : ∀ (p : List String) (lv : List DepMap) (m : DepMap) (v : Visit),
    nodeAt lv m p = some v → v ∈ visitEntries (m :: lv) m
  | [], _, _, _, h => by simp [nodeAt] at h
  | n :: p, lv, m, v, h => by
    cases hl : m.lookup n with
    | none => simp [nodeAt, hl] at h
    | some d =>
      cases hd : d.Dev with
      | true => simp [nodeAt, hl, hd] at h
      | false =>
        have hmem := mem_of_lookup m n d hl
        rw [mem_visitEntries]
        refine ⟨(n, d), hmem, ?_⟩
        rw [mem_visitDep]
        refine ⟨hd, ?_⟩
        cases p with
        | nil =>
          left
          simp [nodeAt, hl, hd] at h
          exact h.symm
        | cons a p =>
          right
          cases hds : d.Dependencies with
          | none => simp [nodeAt, hl, hd, hds] at h
          | some ds =>
            refine ⟨ds, rfl, ?_⟩
            simp only [nodeAt, hl, hd, hds] at h
            exact path_visitEntries (a :: p) (m :: lv) ds v (by simpa using h)

theorem visit_iff_path (lv : List DepMap) (m : DepMap) (v : Visit) (hwf : wfMap m = true) :
    v ∈ visitEntries (m :: lv) m ↔ ∃ p, nodeAt lv m p = some v := by
  constructor
  · intro h
    obtain ⟨e, he, hdev, hx⟩ := visitEntries_path m (m :: lv) v hwf h
    have hl : m.lookup e.1 = some e.2 := lookup_of_mem m e.1 e.2 (wfMap_nodup m hwf) he
    rcases hx with hx | ⟨ds', p', hds', hp'⟩
    · exact ⟨[e.1], by rw [nodeAt_one lv m e.1 e.2 hl hdev, hx]⟩
    · refine ⟨e.1 :: p', ?_⟩
      rw [nodeAt_step lv m ds' e.1 e.2 p' (nodeAt_ne_nil _ _ _ _ hp') hl hdev hds']
      exact hp'
  · rintro ⟨p, hp⟩
    exact path_visitEntries p lv m v hp

theorem parse_spec (inh : Versions) (root : DepMap) (hwf : wfMap root = true) :
    parse root inh =
      ⟨(visitEntries [root] root).map libOf,
       (visitEntries [root] root).filterMap (edgeOf inh), recordVersions root inh⟩ := by
  unfold parse
  apply parseEntries_spec inh root [root] _ hwf
  intro r
  rw [lookup_recordVersions root inh r (wfMap_nodup root hwf)]
  rfl

theorem mem_parse_libs (inh : Versions) (root : DepMap) (hwf : wfMap root = true)
    (x : Library) :
    x ∈ (parse root inh).libs ↔ ∃ p v, nodeAt [] root p = some v ∧ x = libOf v := by
  rw [parse_spec inh root hwf]
  simp only [List.mem_map, visit_iff_path [] root _ hwf]
  constructor
  · rintro ⟨v, ⟨p, hp⟩, rfl⟩
    exact ⟨p, v, hp, rfl⟩
  · rintro ⟨p, v, hp, rfl⟩
    exact ⟨v, ⟨p, hp⟩, rfl⟩

theorem mem_parse_deps (inh : Versions) (root : DepMap) (hwf : wfMap root = true)
    (e : Edge) :
    e ∈ (parse root inh).deps ↔
      ∃ p v, nodeAt [] root p = some v ∧ targets inh v ≠ [] ∧
        e = ⟨ID v.name v.node.Version, targets inh v⟩ := by
  rw [parse_spec inh root hwf]
  simp only [List.mem_filterMap, visit_iff_path [] root _ hwf]
  constructor
  · rintro ⟨v, ⟨p, hp⟩, he⟩
    unfold edgeOf at he
    split at he
    · rename_i hpos
      refine ⟨p, v, hp, ?_, ?_⟩
      · intro h0; rw [h0] at hpos; simp at hpos
      · simpa using he.symm
    · simp at he
  · rintro ⟨p, v, hp, hne, rfl⟩
    refine ⟨v, ⟨p, hp⟩, ?_⟩
    unfold edgeOf
    rw [if_pos (List.length_pos.2 hne)]

theorem mem_targets (inh : Versions) (v : Visit) (r : String) (ver : String)
    (hr : r ∈ v.node.Requires.map Prod.fst) (hres : resolvedVersion inh v r = some ver) :
    ID r ver ∈ targets inh v := by
  obtain ⟨q, hq, rfl⟩ := List.mem_map.1 hr
  unfold targets
  rw [List.mem_filterMap]
  exact ⟨q, hq, by simp [hres]⟩

theorem scopeVersion_closest (inh : Versions) (r : String) (d : Dependency) (m : DepMap) :
    ∀ (pre post : List DepMap), (∀ m' ∈ pre, m'.lookup r = none) → m.lookup r = some d →
      scopeVersion inh (pre ++ m :: post) r = some d.Version
  | [], post, _, hm => by simp [scopeVersion, hm]
  | a :: pre, post, hpre, hm => by
    have ha : a.lookup r = none := hpre a (List.mem_cons_self _ _)
    have ih := scopeVersion_closest inh r d m pre post
      (fun m' h => hpre m' (List.mem_cons_of_mem _ h)) hm
    simp [scopeVersion, ha, ih]

theorem lookup_perm {m m' : DepMap} (h : m.Perm m') (hnd : (m.map Prod.fst).Nodup)
    (r : String) : m'.lookup r = m.lookup r := by
  have hnd' : (m'.map Prod.fst).Nodup := (h.map Prod.fst).nodup_iff.1 hnd
  cases hl : m.lookup r with
  | some d => exact lookup_of_mem m' r d hnd' (h.mem_iff.1 (mem_of_lookup m r d hl))
  | none =>
    cases hl' : m'.lookup r with
    | none => rfl
    | some d =>
      have := lookup_of_mem m r d hnd (h.mem_iff.2 (mem_of_lookup m' r d hl'))
      rw [hl] at this
      cases this

theorem wfDep_some (d : Dependency) (ds : DepMap) (h : wfDep d = true)
    (hds : d.Dependencies = some ds) : wfMap ds = true := by
  obtain ⟨ver, dev, nested, req⟩ := d
  simp only [Dependency.Dependencies] at hds
  subst hds
  simpa [wfDep] using h

theorem nodeAt_levels_wf : ∀ (p : List String) (lv : List DepMap) (m : DepMap) (v : Visit),
    wfMap m = true → (∀ l ∈ lv, wfMap l = true) → nodeAt lv m p = some v →
    (∀ l ∈ v.levels, wfMap l = true) ∧ wfDep v.node = true
  | [], _, _, _, _, _, h => by simp [nodeAt] at h
  | n :: p, lv, m, v, hwf, hlv, h => by
    cases hl : m.lookup n with
    | none => simp [nodeAt, hl] at h
    | some d =>
      have hd' : wfDep d = true := wfMap_mem m (n, d) hwf (mem_of_lookup m n d hl)
      have hlv' : ∀ l ∈ m :: lv, wfMap l = true := by
        intro l hl'
        rcases List.mem_cons.1 hl' with rfl | hl'
        · exact hwf
        · exact hlv l hl'
      cases hd : d.Dev with
      | true => simp [nodeAt, hl, hd] at h
      | false =>
        cases p with
        | nil =>
          simp [nodeAt, hl, hd] at h
          subst h
          exact ⟨hlv', hd'⟩
        | cons a p =>
          cases hds : d.Dependencies with
          | none => simp [nodeAt, hl, hd, hds] at h
          | some ds =>
            simp only [nodeAt, hl, hd, hds] at h
            exact nodeAt_levels_wf (a :: p) (m :: lv) ds v (wfDep_some d ds hd' hds) hlv'
              (by simpa using h)

theorem ID_version_inj (name v w : String) (h : ID name v = ID name w) : v = w := by
  have h' := congrArg String.data h
  simp only [ID, String.data_append, List.append_assoc] at h'
  exact String.ext (List.append_cancel_left (List.append_cancel_left h'))

theorem edge_of_visit (inh : Versions) (root : DepMap) (p : List String) (v : Visit)
    (r ver : String) (hwf : wfMap root = true) (hv : nodeAt [] root p = some v)
    (hr : r ∈ v.node.Requires.map Prod.fst) (hres : resolvedVersion inh v r = some ver) :
    ∃ e ∈ (parse root inh).deps,
      e.ID = ID v.name v.node.Version ∧
      e.DependsOn =
        v.node.Requires.filterMap (fun q => (resolvedVersion inh v q.1).map (ID q.1)) ∧
      ID r ver ∈ e.DependsOn := by
  have hmem := mem_targets inh v r ver hr hres
  have hne : targets inh v ≠ [] := List.ne_nil_of_mem hmem
  exact ⟨⟨ID v.name v.node.Version, targets inh v⟩,
    (mem_parse_deps inh root hwf _).2 ⟨p, v, hv, hne, rfl⟩, rfl, rfl, hmem⟩

/-- C1: in a lock tree (every map with distinct keys, as in Go), for a visited position
whose node has a nested entry for a requirement `r`, the edge of that position is in the
output of `parse`, its targets are the per-requirement targets in `Requires` order, and
the target for `r` is `ID r` of the nested entry's version, whatever the enclosing
levels hold for `r`. -/
theorem nested_entry_shadows (inh : Versions) (root : DepMap) (p : List String)
    (v : Visit) (r : String) (d : Dependency)
    (hwf : wfMap root = true) (hv : nodeAt [] root p = some v)
    (hr : r ∈ v.node.Requires.map Prod.fst)
    (hn : v.node.Dependencies.bind (fun m => m.lookup r) = some d) :
    ∃ e ∈ (parse root inh).deps,
      e.ID = ID v.name v.node.Version ∧
      e.DependsOn =
        v.node.Requires.filterMap (fun q => (resolvedVersion inh v q.1).map (ID q.1)) ∧
      resolvedVersion inh v r = some d.Version ∧
      ID r d.Version ∈ e.DependsOn := by
  have hres : resolvedVersion inh v r = some d.Version := by
    unfold resolvedVersion; rw [hn]
  obtain ⟨e, he, h1, h2, h3⟩ := edge_of_visit inh root p v r d.Version hwf hv hr hres
  exact ⟨e, he, h1, h2, hres, h3⟩

theorem nested_entry_shadows_witness :
    ∃ e ∈ (parse nestedLock []).deps,
      e.ID = ID "send" "0.17.1" ∧
      e.DependsOn = ["debug@2.6.9", "ms@2.1.1"] ∧
      resolvedVersion []
        ⟨[nestedLock], "send", .mk "0.17.1" false
          (some [("ms", .mk "2.1.1" false none [])])
          [("debug", "2.6.9"), ("ms", "2.1.1")]⟩ "ms" = some "2.1.1" ∧
      ID "ms" "2.1.1" ∈ e.DependsOn :=
  nested_entry_shadows [] nestedLock ["send"]
    ⟨[nestedLock], "send", .mk "0.17.1" false
      (some [("ms", .mk "2.1.1" false none [])])
      [("debug", "2.6.9"), ("ms", "2.1.1")]⟩
    "ms" (.mk "2.1.1" false none []) (by decide) rfl (by decide) rfl

/-- C2: for a visited position whose node has no nested entry for a requirement `r`,
when `m` is the closest mapping on the way to the root that has an entry for `r`, the
edge of the position is in the output of `parse` and its target for `r` is `ID r` of the
version of that entry; the first loop records that version for `r` in whichever order it
ranges over `m`.  On the `npmNormal` shape, `Parse` returns the single edge
`promise@8.0.3 -> [asap@2.0.7]`, also with the entries in the opposite order. -/
theorem closest_level_resolves (inh : Versions) (root : DepMap) (p : List String)
    (v : Visit) (r : String) (pre : List DepMap) (m : DepMap) (post : List DepMap)
    (d : Dependency)
    (hwf : wfMap root = true) (hv : nodeAt [] root p = some v)
    (hr : r ∈ v.node.Requires.map Prod.fst)
    (hn : v.node.Dependencies.bind (fun m => m.lookup r) = none)
    (hlev : v.levels = pre ++ m :: post)
    (hpre : ∀ m' ∈ pre, m'.lookup r = none) (hm : m.lookup r = some d) :
    (∃ e ∈ (parse root inh).deps,
      e.ID = ID v.name v.node.Version ∧
      e.DependsOn =
        v.node.Requires.filterMap (fun q => (resolvedVersion inh v q.1).map (ID q.1)) ∧
      resolvedVersion inh v r = some d.Version ∧
      ID r d.Version ∈ e.DependsOn) ∧
    (∀ m' vs, m.Perm m' → (recordVersions m' vs).lookup r = some d.Version) ∧
    Parse (.ok ⟨normalLock⟩) =
      .ok ([⟨"promise", "8.0.3"⟩, ⟨"asap", "2.0.7"⟩, ⟨"jquery", "3.4.0"⟩],
           [⟨"promise@8.0.3", ["asap@2.0.7"]⟩]) ∧
    Parse (.ok ⟨normalLock.reverse⟩) =
      .ok ([⟨"jquery", "3.4.0"⟩, ⟨"asap", "2.0.7"⟩, ⟨"promise", "8.0.3"⟩],
           [⟨"promise@8.0.3", ["asap@2.0.7"]⟩]) := by
  have hres : resolvedVersion inh v r = some d.Version := by
    unfold resolvedVersion
    rw [hn, hlev]
    exact scopeVersion_closest inh r d m pre post hpre hm
  obtain ⟨e, he, h1, h2, h3⟩ := edge_of_visit inh root p v r d.Version hwf hv hr hres
  refine ⟨⟨e, he, h1, h2, hres, h3⟩, ?_, rfl, rfl⟩
  intro m' vs hperm
  have hmwf : wfMap m = true :=
    (nodeAt_levels_wf p [] root v hwf (by simp) hv).1 m (by rw [hlev]; simp)
  have hnd : (m.map Prod.fst).Nodup := wfMap_nodup m hmwf
  have hnd' : (m'.map Prod.fst).Nodup := (hperm.map Prod.fst).nodup_iff.1 hnd
  rw [lookup_recordVersions m' vs r hnd', lookup_perm hperm hnd r, hm]

theorem closest_level_resolves_witness :
    (∃ e ∈ (parse normalLock []).deps,
      e.ID = ID "promise" "8.0.3" ∧
      e.DependsOn = ["asap@2.0.7"] ∧
      resolvedVersion [] ⟨[normalLock], "promise", .mk "8.0.3" false none [("asap", "~2.0.6")]⟩
        "asap" = some "2.0.7" ∧
      ID "asap" "2.0.7" ∈ e.DependsOn) ∧
    (∀ m' vs, normalLock.Perm m' → (recordVersions m' vs).lookup "asap" = some "2.0.7") ∧
    Parse (.ok ⟨normalLock⟩) =
      .ok ([⟨"promise", "8.0.3"⟩, ⟨"asap", "2.0.7"⟩, ⟨"jquery", "3.4.0"⟩],
           [⟨"promise@8.0.3", ["asap@2.0.7"]⟩]) ∧
    Parse (.ok ⟨normalLock.reverse⟩) =
      .ok ([⟨"jquery", "3.4.0"⟩, ⟨"asap", "2.0.7"⟩, ⟨"promise", "8.0.3"⟩],
           [⟨"promise@8.0.3", ["asap@2.0.7"]⟩]) :=
  closest_level_resolves [] normalLock ["promise"]
    ⟨[normalLock], "promise", .mk "8.0.3" false none [("asap", "~2.0.6")]⟩
    "asap" [] normalLock [] (.mk "2.0.7" false none [])
    (by decide) rfl (by decide) rfl rfl (by simp) rfl

/-- C3: let `B` be a visited position with a requirement `X` and no nested entry for
`X`, let `vis` be the version visible for `X` from `B`'s level, and let `A` be any
sibling entry of the same mapping, with any nested subtree.  `B`'s edge is in the output
of `parse` and its target for `X` is `ID X vis`, which differs from `ID X w` for every
other version `w` (in particular for one declared inside `A`'s subtree); this holds
wherever `A` stands in the mapping.  Processing `A`, its recursive call included, leaves
the `versions` map of the level as it was, so the entries after `A` are processed with
the same scope. -/
theorem sibling_subtree_isolated (inh : Versions) (root : DepMap) (p : List String)
    (vB : Visit) (X vis : String) (m : DepMap) (lv : List DepMap) (a : String)
    (A : Dependency)
    (hwf : wfMap root = true) (hv : nodeAt [] root p = some vB)
    (hlev : vB.levels = m :: lv) (_hA : m.lookup a = some A) (_ha : a ≠ vB.name)
    (hX : X ∈ vB.node.Requires.map Prod.fst)
    (hn : vB.node.Dependencies.bind (fun m => m.lookup X) = none)
    (hvis : scopeVersion inh (m :: lv) X = some vis) :
    (∃ e ∈ (parse root inh).deps,
      e.ID = ID vB.name vB.node.Version ∧
      e.DependsOn =
        vB.node.Requires.filterMap (fun q => (resolvedVersion inh vB q.1).map (ID q.1)) ∧
      resolvedVersion inh vB X = some vis ∧
      ID X vis ∈ e.DependsOn) ∧
    (∀ w, w ≠ vis → ID X w ≠ ID X vis) ∧
    (∀ vs rest,
      (parseDep a A vs).versions = vs ∧
      parseEntries ((a, A) :: rest) vs =
        ⟨(parseDep a A vs).libs ++ (parseEntries rest vs).libs,
         (parseDep a A vs).deps ++ (parseEntries rest vs).deps,
         (parseEntries rest vs).versions⟩) := by
  have hres : resolvedVersion inh vB X = some vis := by
    unfold resolvedVersion
    rw [hn, hlev]
    exact hvis
  obtain ⟨e, he, h1, h2, h3⟩ := edge_of_visit inh root p vB X vis hwf hv hX hres
  refine ⟨⟨e, he, h1, h2, hres, h3⟩, ?_, ?_⟩
  · intro w hw h
    exact hw (ID_version_inj X w vis h)
  · intro vs rest
    refine ⟨parseDep_versions a A vs, ?_⟩
    simp only [parseEntries, parseDep_versions]

theorem sibling_subtree_isolated_witness :
    (∃ e ∈ (parse nestedLock []).deps,
      e.ID = ID "debug" "2.6.9" ∧
      e.DependsOn = ["ms@2.0.0"] ∧
      resolvedVersion [] ⟨[nestedLock], "debug", .mk "2.6.9" false none [("ms", "2.0.0")]⟩
        "ms" = some "2.0.0" ∧
      ID "ms" "2.0.0" ∈ e.DependsOn) ∧
    (∀ w, w ≠ "2.0.0" → ID "ms" w ≠ ID "ms" "2.0.0") ∧
    (∀ vs rest,
      (parseDep "send" (.mk "0.17.1" false (some [("ms", .mk "2.1.1" false none [])])
          [("debug", "2.6.9"), ("ms", "2.1.1")]) vs).versions = vs ∧
      parseEntries (("send", .mk "0.17.1" false (some [("ms", .mk "2.1.1" false none [])])
          [("debug", "2.6.9"), ("ms", "2.1.1")]) :: rest) vs =
        ⟨(parseDep "send" (.mk "0.17.1" false (some [("ms", .mk "2.1.1" false none [])])
            [("debug", "2.6.9"), ("ms", "2.1.1")]) vs).libs ++ (parseEntries rest vs).libs,
         (parseDep "send" (.mk "0.17.1" false (some [("ms", .mk "2.1.1" false none [])])
            [("debug", "2.6.9"), ("ms", "2.1.1")]) vs).deps ++ (parseEntries rest vs).deps,
         (parseEntries rest vs).versions⟩) :=
  sibling_subtree_isolated [] nestedLock ["debug"]
    ⟨[nestedLock], "debug", .mk "2.6.9" false none [("ms", "2.0.0")]⟩
    "ms" "2.0.0" nestedLock [] "send"
    (.mk "0.17.1" false (some [("ms", .mk "2.1.1" false none [])])
      [("debug", "2.6.9"), ("ms", "2.1.1")])
    (by decide) rfl rfl rfl (by decide) (by decide) rfl rfl

/-- C4: the libraries returned by `Parse` are exactly the pairs `(name, version)` of the
positions reached through entries with `Dev = false` only (the entry itself included);
the pair of a dev entry, or of an entry below a dev entry, is in the output only if it
also occurs at such a position. -/
theorem dev_exclusion (root : DepMap) (hwf : wfMap root = true) :
    ∃ libs deps, Parse (.ok ⟨root⟩) = .ok (libs, deps) ∧
      ∀ x : Library, x ∈ libs ↔
        ∃ p v, nodeAt [] root p = some v ∧ x = ⟨v.name, v.node.Version⟩ := by
  refine ⟨unique (parse root []).libs, uniqueDeps (parse root []).deps, rfl, ?_⟩
  intro x
  rw [mem_unique, mem_parse_libs [] root hwf x]
  rfl

theorem dev_exclusion_witness :
    ∃ libs deps, Parse (.ok ⟨devLock⟩) = .ok (libs, deps) ∧
      ∀ x : Library, x ∈ libs ↔
        ∃ p v, nodeAt [] devLock p = some v ∧ x = ⟨v.name, v.node.Version⟩ :=
  dev_exclusion devLock (by decide)

theorem resolveRequires_filter (nested : Option DepMap) (vs : Versions) (r : String)
    (hn : nested.bind (fun m => m.lookup r) = none) (hv : vs.lookup r = none) :
    ∀ req : List (String × String),
      resolveRequires nested vs (req.filter (fun q => q.1 != r)) =
        resolveRequires nested vs req
  | [] => rfl
  | (libName, rng) :: rest => by
    have ih := resolveRequires_filter nested vs r hn hv rest
    by_cases h : libName = r
    · subst h
      simp only [List.filter, bne_self_eq_false, ih]
      simp only [resolveRequires, hn, hv]
    · have hb : (libName != r) = true := by simpa using h
      simp only [List.filter, hb]
      simp only [resolveRequires, ih]

theorem resolveRequires_congr (n1 n2 : Option DepMap) (vs : Versions)
    (h : ∀ x, (n1.bind (fun m => m.lookup x)).map Dependency.Version =
      (n2.bind (fun m => m.lookup x)).map Dependency.Version) :
    ∀ req : List (String × String), resolveRequires n1 vs req = resolveRequires n2 vs req
  | [] => rfl
  | (libName, rng) :: rest => by
    have ih := resolveRequires_congr n1 n2 vs h rest
    have hx := h libName
    simp only [resolveRequires, ih]
    cases h1 : n1.bind (fun m => m.lookup libName) with
    | none =>
      cases h2 : n2.bind (fun m => m.lookup libName) with
      | none => rfl
      | some d2 => rw [h1, h2] at hx; simp at hx
    | some d1 =>
      cases h2 : n2.bind (fun m => m.lookup libName) with
      | none => rw [h1, h2] at hx; simp at hx
      | some d2 =>
        rw [h1, h2] at hx
        simp only [Option.map_some', Option.some.injEq] at hx
        simp [hx]

theorem lookup_map_version (x : String) : ∀ m : DepMap,
    (m.lookup x).map Dependency.Version =
      (m.map (fun e => (e.1, e.2.Version))).lookup x
  | [] => rfl
  | (k, d) :: rest => by
    have ih := lookup_map_version x rest
    by_cases h : x = k
    · subst h; simp [List.lookup]
    · have hb : (x == k) = false := by simpa using h
      simp only [List.lookup, List.map_cons, hb, ih]

theorem recordVersions_map (m : DepMap) (vs : Versions) :
    recordVersions m vs =
      (m.map (fun e => (e.1, e.2.Version))).foldl (fun vs e => setVersion vs e.1 e.2) vs := by
  unfold recordVersions
  rw [List.foldl_map]

theorem dropRequire_version (r : String) (d : Dependency) :
    (dropRequire r d).Version = d.Version := by
  cases d; rfl

theorem withNested_version (f : DepMap → DepMap) (d : Dependency) :
    (withNested f d).Version = d.Version := by
  cases d; rfl

theorem eraseReq_versions (r : String) (p : List String) (m : DepMap) :
    (eraseReq r p m).map (fun e => (e.1, e.2.Version)) =
      m.map (fun e => (e.1, e.2.Version)) := by
  cases p with
  | nil => rfl
  | cons n p =>
    cases p with
    | nil =>
      simp only [eraseReq, List.map_map]
      apply List.map_congr_left
      intro e _
      by_cases h : e.1 = n <;> simp [h, dropRequire_version]
    | cons a q =>
      simp only [eraseReq, List.map_map]
      apply List.map_congr_left
      intro e _
      by_cases h : e.1 = n <;> simp [h, withNested_version]

theorem parseEntries_map_congr (vs : Versions)
    (f : String × Dependency → String × Dependency) :
    ∀ m : DepMap, (∀ e ∈ m, parseDep (f e).1 (f e).2 vs = parseDep e.1 e.2 vs) →
      parseEntries (m.map f) vs = parseEntries m vs
  | [], _ => rfl
  | (k, d) :: rest, h => by
    have h1 := h (k, d) (List.mem_cons_self _ _)
    have ih := parseEntries_map_congr vs f rest
      (fun e he => h e (List.mem_cons_of_mem _ he))
    have hf : f (k, d) = ((f (k, d)).1, (f (k, d)).2) := rfl
    rw [List.map_cons, hf]
    simp only [parseEntries, parseDep_versions] at h1 ih ⊢
    rw [h1, ih]

theorem resolvedVersion_none (inh : Versions) (v : Visit) (r : String)
    (h : resolvedVersion inh v r = none) :
    v.node.Dependencies.bind (fun m => m.lookup r) = none ∧
      scopeVersion inh v.levels r = none := by
  unfold resolvedVersion at h
  cases hb : v.node.Dependencies.bind (fun m => m.lookup r) with
  | none => rw [hb] at h; exact ⟨rfl, h⟩
  | some d => rw [hb] at h; simp at h

theorem scopeVersion_none (inh : Versions) (r : String) :
    ∀ levels : List DepMap, (∀ m ∈ levels, m.lookup r = none) → inh.lookup r = none →
      scopeVersion inh levels r = none
  | [], _, hi => by simpa [scopeVersion] using hi
  | m :: rest, hl, hi => by
    have hm : m.lookup r = none := hl m (List.mem_cons_self _ _)
    have ih := scopeVersion_none inh r rest (fun m' h => hl m' (List.mem_cons_of_mem _ h)) hi
    simp [scopeVersion, hm, ih]

theorem parseDep_dropRequire (k r : String) (d : Dependency) (vs : Versions)
    (hn : d.Dependencies.bind (fun m => m.lookup r) = none) (hv : vs.lookup r = none) :
    parseDep k (dropRequire r d) vs = parseDep k d vs := by
  cases d with
  | mk ver dev nested req =>
    have hn' : nested.bind (fun m => m.lookup r) = none := hn
    have hf := resolveRequires_filter nested vs r hn' hv req
    cases dev <;> cases nested <;> simp only [dropRequire, parseDep, hf]

theorem parseEntries_eraseReq (inh : Versions) (r : String) :
    ∀ (p : List String) (lv : List DepMap) (m : DepMap) (v : Visit) (vs : Versions),
      wfMap m = true → (∀ x, vs.lookup x = scopeVersion inh (m :: lv) x) →
      nodeAt lv m p = some v → resolvedVersion inh v r = none →
      parseEntries (eraseReq r p m) vs = parseEntries m vs
  | [], _, _, _, _, _, _, h, _ => by simp [nodeAt] at h
  | n :: p, lv, m, v, vs, hwf, hs, h, hres => by
    cases hl : m.lookup n with
    | none => simp [nodeAt, hl] at h
    | some d =>
      have hnd := wfMap_nodup m hwf
      have hd' : wfDep d = true := wfMap_mem m (n, d) hwf (mem_of_lookup m n d hl)
      have hsame : ∀ e ∈ m, e.1 = n → e.2 = d := by
        intro e he hn
        have := lookup_of_mem m e.1 e.2 hnd he
        rw [hn, hl] at this
        exact (Option.some.inj this).symm
      cases hd : d.Dev with
      | true => simp [nodeAt, hl, hd] at h
      | false =>
        cases p with
        | nil =>
          simp [nodeAt, hl, hd] at h
          subst h
          obtain ⟨hn1, hn2⟩ := resolvedVersion_none inh _ r hres
          simp only at hn1 hn2
          have hvr : vs.lookup r = none := by rw [hs, hn2]
          simp only [eraseReq]
          apply parseEntries_map_congr
          intro e he
          by_cases hen : e.1 = n
          · rw [if_pos hen]
            simp only
            rw [hsame e he hen]
            exact parseDep_dropRequire e.1 r d vs hn1 hvr
          · rw [if_neg hen]
        | cons a q =>
          cases hds : d.Dependencies with
          | none => simp [nodeAt, hl, hd, hds] at h
          | some ds =>
            simp only [nodeAt, hl, hd, hds] at h
            have h' : nodeAt (m :: lv) ds (a :: q) = some v := by simpa using h
            have hwf' : wfMap ds = true := wfDep_some d ds hd' hds
            have hs' : ∀ x, (recordVersions ds (clone vs)).lookup x
                = scopeVersion inh (ds :: m :: lv) x := by
              intro x
              rw [clone, lookup_recordVersions ds vs x (wfMap_nodup ds hwf'), hs]
              rfl
            have ih := parseEntries_eraseReq inh r (a :: q) (m :: lv) ds v _ hwf' hs' h' hres
            have hrec : recordVersions (eraseReq r (a :: q) ds) (clone vs)
                = recordVersions ds (clone vs) := by
              rw [recordVersions_map, recordVersions_map, eraseReq_versions]
            simp only [eraseReq]
            apply parseEntries_map_congr
            intro e he
            by_cases hen : e.1 = n
            · rw [if_pos hen]
              simp only
              rw [hsame e he hen]
              obtain ⟨ver, dev, nested, req⟩ := d
              simp only [Dependency.Dependencies] at hds
              simp only [Dependency.Dev] at hd
              subst hds hd
              have hcg := resolveRequires_congr
                (some (eraseReq r (a :: q) ds)) (some ds) vs
                (by
                  intro x
                  simp only [Option.some_bind]
                  rw [lookup_map_version, lookup_map_version, eraseReq_versions]) req
              simp only [withNested, Option.map_some', parseDep, hrec, ih, hcg]
            · rw [if_neg hen]

/-- C5: `Parse` returns a result for every decoded tree.  For a visited position and a
requirement `r` of its node that is a key neither of the node's nested map nor of any
mapping on the way to the root (nor of the inherited scope), the targets of the position
are those of its other requirements, every resolvable requirement still has its target
in the position's edge, and the whole output of `parse` is the one obtained from the
tree in which `r` is removed from the node's `Requires`. -/
theorem unresolved_requirement_dropped (inh : Versions) (root : DepMap) (p : List String)
    (v : Visit) (r : String)
    (hwf : wfMap root = true) (hv : nodeAt [] root p = some v)
    (_hr : r ∈ v.node.Requires.map Prod.fst)
    (hn : v.node.Dependencies.bind (fun m => m.lookup r) = none)
    (hlv : ∀ m ∈ v.levels, m.lookup r = none) (hinh : inh.lookup r = none) :
    (∃ out, Parse (.ok ⟨root⟩) = .ok out) ∧
    resolvedVersion inh v r = none ∧
    targets inh v =
      (v.node.Requires.filter (fun q => q.1 != r)).filterMap
        (fun q => (resolvedVersion inh v q.1).map (ID q.1)) ∧
    (∀ q ver, q ∈ v.node.Requires.map Prod.fst → resolvedVersion inh v q = some ver →
      ∃ e ∈ (parse root inh).deps, e.ID = ID v.name v.node.Version ∧
        e.DependsOn = targets inh v ∧ ID q ver ∈ e.DependsOn) ∧
    parse (eraseReq r p root) inh = parse root inh := by
  have hres : resolvedVersion inh v r = none := by
    unfold resolvedVersion
    rw [hn]
    exact scopeVersion_none inh r v.levels hlv hinh
  refine ⟨⟨_, rfl⟩, hres, ?_, ?_, ?_⟩
  · unfold targets
    rw [List.filterMap_filter]
    apply List.filterMap_congr
    intro q _
    by_cases hq : q.1 = r
    · simp [hq, hres]
    · have hb : (q.1 != r) = true := by simpa using hq
      simp [hb]
  · intro q ver hq hqres
    obtain ⟨e, he, h1, h2, h3⟩ := edge_of_visit inh root p v q ver hwf hv hq hqres
    exact ⟨e, he, h1, h2, h3⟩
  · unfold parse
    have hrec : recordVersions (eraseReq r p root) inh = recordVersions root inh := by
      rw [recordVersions_map, recordVersions_map, eraseReq_versions]
    rw [hrec]
    apply parseEntries_eraseReq inh r p [] root v _ hwf _ hv hres
    intro x
    rw [lookup_recordVersions root inh x (wfMap_nodup root hwf)]
    rfl

theorem cleanMap_mem : ∀ (m : DepMap) (e : String × Dependency),
    cleanMap m = true → e ∈ m → cleanString e.1 = true ∧ cleanDep e.2 = true
  | [], _, _, he => by simp at he
  | (k, d) :: rest, e, h, he => by
    simp only [cleanMap, Bool.and_eq_true] at h
    rcases List.mem_cons.1 he with rfl | he
    · exact ⟨h.1.1, h.1.2⟩
    · exact cleanMap_mem rest e h.2 he

theorem cleanDep_version (d : Dependency) (h : cleanDep d = true) :
    cleanString d.Version = true := by
  obtain ⟨ver, dev, nested, req⟩ := d
  cases nested with
  | none => simpa [cleanDep] using h
  | some ds =>
    simp only [cleanDep, Bool.and_eq_true] at h
    exact h.1

theorem cleanDep_some (d : Dependency) (ds : DepMap) (h : cleanDep d = true)
    (hds : d.Dependencies = some ds) : cleanMap ds = true := by
  obtain ⟨ver, dev, nested, req⟩ := d
  simp only [Dependency.Dependencies] at hds
  subst hds
  simp only [cleanDep, Bool.and_eq_true] at h
  exact h.2

theorem cleanMap_lookup (m : DepMap) (r : String) (d : Dependency)
    (h : cleanMap m = true) (hl : m.lookup r = some d) :
    cleanString r = true ∧ cleanString d.Version = true := by
  have := cleanMap_mem m (r, d) h (mem_of_lookup m r d hl)
  exact ⟨this.1, cleanDep_version d this.2⟩

theorem nodeAt_clean : ∀ (p : List String) (lv : List DepMap) (m : DepMap) (v : Visit),
    cleanMap m = true → (∀ l ∈ lv, cleanMap l = true) → nodeAt lv m p = some v →
    (∀ l ∈ v.levels, cleanMap l = true) ∧ cleanDep v.node = true ∧
      cleanString v.name = true
  | [], _, _, _, _, _, h => by simp [nodeAt] at h
  | n :: p, lv, m, v, hc, hlv, h => by
    cases hl : m.lookup n with
    | none => simp [nodeAt, hl] at h
    | some d =>
      have hd' := cleanMap_mem m (n, d) hc (mem_of_lookup m n d hl)
      have hlv' : ∀ l ∈ m :: lv, cleanMap l = true := by
        intro l hl'
        rcases List.mem_cons.1 hl' with rfl | hl'
        · exact hc
        · exact hlv l hl'
      cases hd : d.Dev with
      | true => simp [nodeAt, hl, hd] at h
      | false =>
        cases p with
        | nil =>
          simp [nodeAt, hl, hd] at h
          subst h
          exact ⟨hlv', hd'.2, hd'.1⟩
        | cons a p =>
          cases hds : d.Dependencies with
          | none => simp [nodeAt, hl, hd, hds] at h
          | some ds =>
            simp only [nodeAt, hl, hd, hds] at h
            exact nodeAt_clean (a :: p) (m :: lv) ds v (cleanDep_some d ds hd'.2 hds) hlv'
              (by simpa using h)

theorem scopeVersion_clean (r ver : String) : ∀ levels : List DepMap,
    (∀ l ∈ levels, cleanMap l = true) → scopeVersion [] levels r = some ver →
    cleanString r = true ∧ cleanString ver = true
  | [], _, h => by simp [scopeVersion] at h
  | m :: rest, hl, h => by
    cases hm : m.lookup r with
    | some d =>
      simp only [scopeVersion, hm, Option.some.injEq] at h
      subst h
      exact cleanMap_lookup m r d (hl m (List.mem_cons_self _ _)) hm
    | none =>
      simp only [scopeVersion, hm] at h
      exact scopeVersion_clean r ver rest (fun l h' => hl l (List.mem_cons_of_mem _ h')) h

theorem resolvedVersion_clean (v : Visit) (r ver : String)
    (hlv : ∀ l ∈ v.levels, cleanMap l = true) (hnode : cleanDep v.node = true)
    (h : resolvedVersion [] v r = some ver) :
    cleanString r = true ∧ cleanString ver = true := by
  unfold resolvedVersion at h
  cases hb : v.node.Dependencies.bind (fun m => m.lookup r) with
  | some d =>
    rw [hb] at h
    simp only [Option.some.injEq] at h
    subst h
    cases hds : v.node.Dependencies with
    | none => rw [hds] at hb; simp at hb
    | some ds =>
      rw [hds] at hb
      exact cleanMap_lookup ds r d (cleanDep_some v.node ds hnode hds) (by simpa using hb)
  | none =>
    rw [hb] at h
    exact scopeVersion_clean r ver v.levels hlv h

theorem mem_targets_iff (inh : Versions) (v : Visit) (t : String) :
    t ∈ targets inh v ↔
      ∃ r ver, r ∈ v.node.Requires.map Prod.fst ∧ resolvedVersion inh v r = some ver ∧
        t = ID r ver := by
  unfold targets
  simp only [List.mem_filterMap, List.mem_map, Option.map_eq_some']
  constructor
  · rintro ⟨q, hq, ver, hres, rfl⟩
    exact ⟨q.1, ver, ⟨q, hq, rfl⟩, hres, rfl⟩
  · rintro ⟨r, ver, ⟨q, hq, rfl⟩, hres, rfl⟩
    exact ⟨q, hq, ver, hres, rfl⟩

theorem ID_data (name version : String) :
    (ID name version).data = name.data ++ '@' :: version.data := by
  simp [ID, String.data_append]

theorem cleanEdge_of_visit (v : Visit)
    (hlv : ∀ l ∈ v.levels, cleanMap l = true) (hnode : cleanDep v.node = true)
    (hname : cleanString v.name = true) :
    CleanEdge ⟨ID v.name v.node.Version, targets [] v⟩ := by
  have hver := cleanDep_version v.node hnode
  simp only [cleanString, decide_eq_true_eq] at hname hver
  refine ⟨?_, ?_⟩
  · show ':' ∉ (ID v.name v.node.Version).data
    rw [ID_data]
    simp only [List.mem_append, List.mem_cons, not_or]
    exact ⟨hname.2.2, by decide, hver.2.2⟩
  · intro t ht
    obtain ⟨r, ver, _, hres, rfl⟩ := (mem_targets_iff [] v t).1 ht
    obtain ⟨h1, h2⟩ := resolvedVersion_clean v r ver hlv hnode hres
    simp only [cleanString, decide_eq_true_eq] at h1 h2
    refine ⟨?_, ?_⟩
    · intro h
      have := congrArg String.data h
      rw [ID_data] at this
      simp at this
    · rw [ID_data]
      simp only [List.mem_append, List.mem_cons, not_or]
      exact ⟨h1.2.1, by decide, h2.2.1⟩

theorem parse_deps_clean (root : DepMap) (hwf : wfMap root = true)
    (hclean : cleanMap root = true) : ∀ e ∈ (parse root []).deps, CleanEdge e := by
  intro e he
  obtain ⟨p, v, hv, _, rfl⟩ := (mem_parse_deps [] root hwf e).1 he
  obtain ⟨h1, h2, h3⟩ := nodeAt_clean p [] root v hclean (by simp) hv
  exact cleanEdge_of_visit v h1 h2 h3

/-- C6: in a lock tree whose names and versions are free of `@`, `,` and `:`, every
position reached through non-dev entries whose node has a resolvable requirement has its
library in the libraries returned by `Parse` and an edge in the edges returned by
`Parse` whose source is `ID` of its name and version and whose targets are, as a set,
the identifiers `ID r ver` of its resolvable requirements `r` with their resolved
versions `ver`.  On the `npmNested` shape both `debug@2.0.0 -> [ms@0.6.2]` and
`debug@2.6.9 -> [ms@2.0.0]` are returned, with both libraries. -/
theorem every_position_has_its_edge (root : DepMap) (p : List String) (v : Visit)
    (hwf : wfMap root = true) (hclean : cleanMap root = true)
    (hv : nodeAt [] root p = some v)
    (hres : ∃ r ∈ v.node.Requires.map Prod.fst, (resolvedVersion [] v r).isSome = true) :
    (∃ libs deps, Parse (.ok ⟨root⟩) = .ok (libs, deps) ∧
      (⟨v.name, v.node.Version⟩ : Library) ∈ libs ∧
      ∃ e ∈ deps, e.ID = ID v.name v.node.Version ∧
        ∀ t, t ∈ e.DependsOn ↔
          ∃ r ver, r ∈ v.node.Requires.map Prod.fst ∧
            resolvedVersion [] v r = some ver ∧ t = ID r ver) ∧
    Parse (.ok ⟨nestedLock⟩) =
      .ok ([⟨"debug", "2.6.9"⟩, ⟨"ms", "2.0.0"⟩, ⟨"send", "0.17.1"⟩, ⟨"ms", "2.1.1"⟩,
            ⟨"body", "1.0.0"⟩, ⟨"debug", "2.0.0"⟩, ⟨"ms", "0.6.2"⟩],
           [⟨"debug@2.6.9", ["ms@2.0.0"]⟩, ⟨"send@0.17.1", ["debug@2.6.9", "ms@2.1.1"]⟩,
            ⟨"body@1.0.0", ["debug@2.0.0"]⟩, ⟨"debug@2.0.0", ["ms@0.6.2"]⟩]) := by
  refine ⟨⟨unique (parse root []).libs, uniqueDeps (parse root []).deps, rfl, ?_, ?_⟩, rfl⟩
  · rw [mem_unique, mem_parse_libs [] root hwf]
    exact ⟨p, v, hv, rfl⟩
  · obtain ⟨r, hr, hsome⟩ := hres
    obtain ⟨ver, hver⟩ := Option.isSome_iff_exists.1 hsome
    have hne : targets [] v ≠ [] := List.ne_nil_of_mem (mem_targets [] v r ver hr hver)
    have hraw : (⟨ID v.name v.node.Version, targets [] v⟩ : Edge) ∈ (parse root []).deps :=
      (mem_parse_deps [] root hwf _).2 ⟨p, v, hv, hne, rfl⟩
    obtain ⟨o, ho, hid, hset⟩ :=
      uniqueDeps_rep _ (parse_deps_clean root hwf hclean) _ hraw
    refine ⟨o, ho, hid, ?_⟩
    intro t
    rw [hset t]
    exact mem_targets_iff [] v t

theorem every_position_has_its_edge_witness :
    (∃ libs deps, Parse (.ok ⟨nestedLock⟩) = .ok (libs, deps) ∧
      (⟨"debug", "2.0.0"⟩ : Library) ∈ libs ∧
      ∃ e ∈ deps, e.ID = ID "debug" "2.0.0" ∧
        ∀ t, t ∈ e.DependsOn ↔
          ∃ r ver, r ∈ ["ms"] ∧
            resolvedVersion [] nestedDebugVisit r = some ver ∧ t = ID r ver) ∧
    Parse (.ok ⟨nestedLock⟩) =
      .ok ([⟨"debug", "2.6.9"⟩, ⟨"ms", "2.0.0"⟩, ⟨"send", "0.17.1"⟩, ⟨"ms", "2.1.1"⟩,
            ⟨"body", "1.0.0"⟩, ⟨"debug", "2.0.0"⟩, ⟨"ms", "0.6.2"⟩],
           [⟨"debug@2.6.9", ["ms@2.0.0"]⟩, ⟨"send@0.17.1", ["debug@2.6.9", "ms@2.1.1"]⟩,
            ⟨"body@1.0.0", ["debug@2.0.0"]⟩, ⟨"debug@2.0.0", ["ms@0.6.2"]⟩]) :=
  every_position_has_its_edge nestedLock ["body", "debug"] nestedDebugVisit
    (by decide) (by decide) rfl ⟨"ms", by decide, rfl⟩

theorem unresolved_requirement_dropped_witness :
    (∃ out, Parse (.ok ⟨missingLock⟩) = .ok out) ∧
    resolvedVersion []
      ⟨[missingLock], "app",
        .mk "1.0.0" false none [("missing-pkg", "^1.0.0"), ("lib", "^2.0.0")]⟩
      "missing-pkg" = none ∧
    targets []
      ⟨[missingLock], "app",
        .mk "1.0.0" false none [("missing-pkg", "^1.0.0"), ("lib", "^2.0.0")]⟩
      = ["lib@2.0.0"] ∧
    (∀ q ver, q ∈ ["missing-pkg", "lib"] →
      resolvedVersion []
        ⟨[missingLock], "app",
          .mk "1.0.0" false none [("missing-pkg", "^1.0.0"), ("lib", "^2.0.0")]⟩ q
        = some ver →
      ∃ e ∈ (parse missingLock []).deps, e.ID = ID "app" "1.0.0" ∧
        e.DependsOn = ["lib@2.0.0"] ∧ ID q ver ∈ e.DependsOn) ∧
    parse (eraseReq "missing-pkg" ["app"] missingLock) [] = parse missingLock [] :=
  unresolved_requirement_dropped [] missingLock ["app"]
    ⟨[missingLock], "app",
      .mk "1.0.0" false none [("missing-pkg", "^1.0.0"), ("lib", "^2.0.0")]⟩
    "missing-pkg" (by decide) rfl (by decide) rfl
    (by
      intro m hm
      rw [List.mem_singleton.1 hm]
      rfl)
    rfl

theorem firstByKey_of_nodup {α κ : Type} [DecidableEq κ] (key : α → κ) (xs : List α)
    (h : (xs.map key).Nodup) : firstByKey key xs = xs := by
  induction xs using List.reverseRecOn with
  | nil => exact firstByKey_nil key
  | append_singleton xs x ih =>
    rw [List.map_append, List.nodup_append] at h
    obtain ⟨h1, _, h3⟩ := h
    rw [firstByKey_snoc, ih h1]
    have hx : key x ∉ xs.map key := fun hh => h3 hh (by simp)
    rw [if_neg hx]

theorem unique_idem (libs : List Library) : unique (unique libs) = unique libs := by
  rw [unique_eq_firstByKey (unique libs)]
  apply firstByKey_of_nodup
  simpa using unique_nodup libs

theorem sortedEdge_idem (d : Edge) : sortedEdge (sortedEdge d) = sortedEdge d := by
  simp [sortedEdge, sortStrings_idem]

theorem uniqueDeps_idem (deps : List Edge) : uniqueDeps (uniqueDeps deps) = uniqueDeps deps := by
  rw [uniqueDeps_eq_firstByKey (uniqueDeps deps)]
  have hk : ((uniqueDeps deps).map depKey).Nodup := by
    rw [uniqueDeps_eq_firstByKey, List.map_map]
    have : depKey ∘ sortedEdge = depKey := funext depKey_sortedEdge
    rw [this]
    exact firstByKey_nodup depKey deps
  rw [firstByKey_of_nodup depKey _ hk, uniqueDeps_eq_firstByKey, List.map_map]
  apply List.map_congr_left
  intro d _
  exact sortedEdge_idem d

/-- C11: `unique` and `uniqueDeps` are idempotent: applied to their own output they
return it unchanged. -/
theorem dedup_idempotent (libs : List Library) (deps : List Edge) :
    unique (unique libs) = unique libs ∧
      uniqueDeps (uniqueDeps deps) = uniqueDeps deps :=
  ⟨unique_idem libs, uniqueDeps_idem deps⟩

theorem split_at_first (c : Char) : ∀ (a b x y : List Char), c ∉ a → c ∉ b →
    a ++ c :: x = b ++ c :: y → a = b ∧ x = y
  | [], [], x, y, _, _, h => by simpa using h
  | [], d :: b, x, y, _, hb, h => by
    simp only [List.nil_append, List.cons_append, List.cons.injEq] at h
    exact absurd h.1 (by intro hc; apply hb; simp [← hc])
  | d :: a, [], x, y, ha, _, h => by
    simp only [List.nil_append, List.cons_append, List.cons.injEq] at h
    exact absurd h.1 (by intro hc; apply ha; simp [hc])
  | d :: a, e :: b, x, y, ha, hb, h => by
    simp only [List.cons_append, List.cons.injEq] at h
    have := split_at_first c a b x y (fun hh => ha (List.mem_cons_of_mem _ hh))
      (fun hh => hb (List.mem_cons_of_mem _ hh)) h.2
    simp [h.1, this.1, this.2]

theorem ID_inj_of_version (n1 v1 n2 v2 : String)
    (h1 : '@' ∉ v1.data) (h2 : '@' ∉ v2.data) (h : ID n1 v1 = ID n2 v2) :
    n1 = n2 ∧ v1 = v2 := by
  have h' := congrArg String.data h
  rw [ID_data, ID_data] at h'
  have hr := congrArg List.reverse h'
  simp only [List.reverse_append, List.reverse_cons, List.append_assoc,
    List.singleton_append] at hr
  obtain ⟨hv, hn⟩ := split_at_first '@' v1.data.reverse v2.data.reverse _ _
    (by simpa using h1) (by simpa using h2) hr
  exact ⟨String.ext (List.reverse_injective hn), String.ext (List.reverse_injective hv)⟩

/-- C12 (as stated, refuted): the distinct pairs `("a", "b@c")` and `("a@b", "c")` have
the same identifier `a@b@c`. -/
theorem ID_collision :
    (("a", "b@c") : String × String) ≠ ("a@b", "c") ∧ ID "a" "b@c" = ID "a@b" "c" := by
  decide

/-- C12 (amended): two distinct `(name, version)` pairs whose versions contain no `@`
have distinct identifiers, whatever the names are, names containing `@` included. -/
theorem ID_distinct_of_versions (n1 v1 n2 v2 : String)
    (h1 : '@' ∉ v1.data) (h2 : '@' ∉ v2.data) (hne : (n1, v1) ≠ (n2, v2)) :
    ID n1 v1 ≠ ID n2 v2 := by
  intro h
  obtain ⟨hn, hv⟩ := ID_inj_of_version n1 v1 n2 v2 h1 h2 h
  exact hne (by rw [hn, hv])

theorem ID_distinct_of_versions_witness : ID "@babel/core" "7.0.0" ≠ ID "@babel" "7.0.0" :=
  ID_distinct_of_versions "@babel/core" "7.0.0" "@babel" "7.0.0"
    (by decide) (by decide) (by decide)

/-- C20: when neither version contains `@`, equal identifiers come from equal names and
equal versions; scoped names such as `@babel/core` are covered. -/
theorem ID_injective_of_versions (n1 v1 n2 v2 : String)
    (h1 : '@' ∉ v1.data) (h2 : '@' ∉ v2.data) (h : ID n1 v1 = ID n2 v2) :
    n1 = n2 ∧ v1 = v2 :=
  ID_inj_of_version n1 v1 n2 v2 h1 h2 h

theorem ID_injective_of_versions_witness :
    "@babel/core" = "@babel/core" ∧ "7.12.3" = "7.12.3" :=
  ID_injective_of_versions "@babel/core" "7.12.3" "@babel/core" "7.12.3"
    (by decide) (by decide) rfl

theorem char_lt_iff (a b : Char) : a.toNat < b.toNat ↔ a < b := by
  simp [Char.lt_def, Char.toNat, UInt32.lt_def, UInt32.toNat]
  rfl

theorem leChars_iff_not_lt : ∀ a b : List Char, leChars a b = true ↔ ¬ b < a
  | [], b => by
    simp only [leChars, true_iff]
    intro h; cases h
  | a :: as, [] => by
    simp only [leChars, Bool.false_eq_true, false_iff, not_not]
    exact List.Lex.nil
  | a :: as, b :: bs => by
    have ih := leChars_iff_not_lt as bs
    simp only [leChars]
    by_cases h1 : a.toNat < b.toNat
    · simp only [h1, if_true, true_iff]
      intro h
      cases h with
      | cons h => omega
      | rel h => exact absurd ((char_lt_iff b a).2 h) (by omega)
    · by_cases h2 : b.toNat < a.toNat
      · simp only [h1, h2, if_false, if_true, Bool.false_eq_true, false_iff, not_not]
        exact List.Lex.rel ((char_lt_iff b a).1 h2)
      · simp only [h1, h2, if_false, ih]
        have hn : a.toNat = b.toNat := by omega
        have hc : a = b := by rw [← Char.ofNat_toNat a, ← Char.ofNat_toNat b, hn]
        subst hc
        constructor
        · intro h3 h
          cases h with
          | cons h => exact h3 h
          | rel h => exact h2 ((char_lt_iff a a).2 h)
        · intro h3 h
          exact h3 (List.Lex.cons h)

theorem StrLE_iff_le (a b : String) : StrLE a b ↔ a ≤ b := by
  unfold StrLE
  rw [leChars_iff_not_lt, String.le_iff_toList_le, not_lt]
  rfl

/-- C19: every edge in the output of `uniqueDeps` has its targets sorted in ascending
lexicographic order (the order `≤` of strings, character by character) and comes from an
input edge with the same source of whose targets its own are a permutation. -/
theorem uniqueDeps_targets_sorted (deps : List Edge) :
    ∀ e ∈ uniqueDeps deps,
      e.DependsOn.Sorted (fun a b : String => a ≤ b) ∧
      ∃ d ∈ deps, e.ID = d.ID ∧ e.DependsOn.Perm d.DependsOn := by
  intro e he
  rw [uniqueDeps_eq_firstByKey] at he
  obtain ⟨d, hd, rfl⟩ := List.mem_map.1 he
  refine ⟨?_, d, firstByKey_subset depKey deps d hd, rfl, sortStrings_perm d.DependsOn⟩
  exact (sortStrings_sorted d.DependsOn).imp (fun h => (StrLE_iff_le _ _).1 h)

mutual
theorem parseEntries_deps_nonempty :
    ∀ (es : List (String × Dependency)) (vs : Versions),
      ∀ e ∈ (parseEntries es vs).deps, e.DependsOn ≠ []
  | [], _, e, he => by simp [parseEntries] at he
  | (k, d) :: rest, vs, e, he => by
    simp only [parseEntries, List.mem_append, parseDep_versions] at he
    rcases he with he | he
    · exact parseDep_deps_nonempty d k vs e he
    · exact parseEntries_deps_nonempty rest vs e he
theorem parseDep_deps_nonempty :
    ∀ (d : Dependency) (k : String) (vs : Versions),
      ∀ e ∈ (parseDep k d vs).deps, e.DependsOn ≠ []
  | .mk ver dev nested req, k, vs, e, he => by
    have hown : ∀ e ∈ (if (resolveRequires nested vs req).length > 0 then
        [(⟨ID k ver, resolveRequires nested vs req⟩ : Edge)] else []), e.DependsOn ≠ [] := by
      intro e he
      split at he
      · rename_i hpos
        rw [List.mem_singleton.1 he]
        exact List.ne_nil_of_length_pos hpos
      · simp at he
    cases dev with
    | true => simp [parseDep] at he
    | false =>
      cases nested with
      | none =>
        simp only [parseDep, Bool.false_eq_true, if_false] at he
        exact hown e he
      | some ds =>
        simp only [parseDep, Bool.false_eq_true, if_false, List.mem_append] at he
        rcases he with he | he
        · exact hown e he
        · exact parseEntries_deps_nonempty ds _ e he
end

theorem parseDep_no_edge (k : String) (d : Dependency) (vs : Versions)
    (hdev : d.Dev = false) (hres : resolveRequires d.Dependencies vs d.Requires = []) :
    (parseDep k d vs).libs =
        ⟨k, d.Version⟩ ::
          (match d.Dependencies with
           | none => []
           | some ds => (parse ds (clone vs)).libs) ∧
      (parseDep k d vs).deps =
        (match d.Dependencies with
         | none => []
         | some ds => (parse ds (clone vs)).deps) := by
  obtain ⟨ver, dev, nested, req⟩ := d
  simp only [Dependency.Dev] at hdev
  simp only [Dependency.Dependencies, Dependency.Requires] at hres
  subst hdev
  cases nested with
  | none => simp [parseDep, hres, Dependency.Version, Dependency.Dependencies]
  | some ds => simp [parseDep, hres, Dependency.Version, Dependency.Dependencies, parse]

/-- C15: every edge returned by `parse`, for every lock tree and scope, and every edge
returned by `Parse` has at least one target; an entry that is not dev and none of whose
requirements resolves (in particular one without requirements) contributes its library
and no edge of its own, only what its nested map contributes. -/
theorem no_empty_edges (root : DepMap) (versions : Versions) (k : String) (d : Dependency)
    (hdev : d.Dev = false)
    (hres : resolveRequires d.Dependencies versions d.Requires = []) :
    (∀ e ∈ (parse root versions).deps, e.DependsOn ≠ []) ∧
    (∀ libs deps, Parse (.ok ⟨root⟩) = .ok (libs, deps) → ∀ e ∈ deps, e.DependsOn ≠ []) ∧
    (parseDep k d versions).libs =
        ⟨k, d.Version⟩ ::
          (match d.Dependencies with
           | none => []
           | some ds => (parse ds (clone versions)).libs) ∧
    (parseDep k d versions).deps =
        (match d.Dependencies with
         | none => []
         | some ds => (parse ds (clone versions)).deps) := by
  refine ⟨parseEntries_deps_nonempty root _, ?_, parseDep_no_edge k d versions hdev hres⟩
  intro libs deps h e he
  simp only [Parse, Except.ok.injEq, Prod.mk.injEq] at h
  rw [← h.2, uniqueDeps_eq_firstByKey] at he
  obtain ⟨x, hx, rfl⟩ := List.mem_map.1 he
  have hx' := parseEntries_deps_nonempty root _ x (firstByKey_subset depKey _ x hx)
  intro hnil
  apply hx'
  have hp := sortStrings_perm x.DependsOn
  have hnil' : sortStrings x.DependsOn = [] := hnil
  rw [hnil'] at hp
  exact List.Perm.eq_nil hp.symm

theorem no_empty_edges_witness :
    (∀ e ∈ (parse missingLock []).deps, e.DependsOn ≠ []) ∧
    (∀ libs deps, Parse (.ok ⟨missingLock⟩) = .ok (libs, deps) →
      ∀ e ∈ deps, e.DependsOn ≠ []) ∧
    (parseDep "app" (.mk "1.0.0" false none [("missing-pkg", "^1.0.0")]) []).libs =
        [⟨"app", "1.0.0"⟩] ∧
    (parseDep "app" (.mk "1.0.0" false none [("missing-pkg", "^1.0.0")]) []).deps = [] :=
  no_empty_edges missingLock [] "app" (.mk "1.0.0" false none [("missing-pkg", "^1.0.0")])
    rfl rfl

mutual
theorem parseEntries_sources :
    ∀ (es : List (String × Dependency)) (vs : Versions),
      ∀ e ∈ (parseEntries es vs).deps,
        ∃ l ∈ (parseEntries es vs).libs, e.ID = ID l.Name l.Version
  | [], _, e, he => by simp [parseEntries] at he
  | (k, d) :: rest, vs, e, he => by
    simp only [parseEntries, List.mem_append, parseDep_versions] at he ⊢
    rcases he with he | he
    · obtain ⟨l, hl, h⟩ := parseDep_sources d k vs e he
      exact ⟨l, Or.inl hl, h⟩
    · obtain ⟨l, hl, h⟩ := parseEntries_sources rest vs e he
      exact ⟨l, Or.inr hl, h⟩
theorem parseDep_sources :
    ∀ (d : Dependency) (k : String) (vs : Versions),
      ∀ e ∈ (parseDep k d vs).deps,
        ∃ l ∈ (parseDep k d vs).libs, e.ID = ID l.Name l.Version
  | .mk ver dev nested req, k, vs, e, he => by
    have hown : ∀ e ∈ (if (resolveRequires nested vs req).length > 0 then
        [(⟨ID k ver, resolveRequires nested vs req⟩ : Edge)] else []), e.ID = ID k ver := by
      intro e he
      split at he
      · rw [List.mem_singleton.1 he]
      · simp at he
    cases dev with
    | true => simp [parseDep] at he
    | false =>
      cases nested with
      | none =>
        simp only [parseDep, Bool.false_eq_true, if_false] at he ⊢
        exact ⟨⟨k, ver⟩, by simp, hown e he⟩
      | some ds =>
        simp only [parseDep, Bool.false_eq_true, if_false, List.mem_append] at he ⊢
        rcases he with he | he
        · exact ⟨⟨k, ver⟩, by simp, hown e he⟩
        · obtain ⟨l, hl, h⟩ := parseEntries_sources ds _ e he
          exact ⟨l, List.mem_cons_of_mem _ hl, h⟩
end

/-- C18: the source of every edge returned by `Parse` is `ID name version` of a library
returned by `Parse`, dev entries allowed anywhere in the tree. -/
theorem edge_sources_are_libraries (root : DepMap) :
    ∃ libs deps, Parse (.ok ⟨root⟩) = .ok (libs, deps) ∧
      ∀ e ∈ deps, ∃ l ∈ libs, e.ID = ID l.Name l.Version := by
  refine ⟨unique (parse root []).libs, uniqueDeps (parse root []).deps, rfl, ?_⟩
  intro e he
  rw [uniqueDeps_eq_firstByKey] at he
  obtain ⟨x, hx, rfl⟩ := List.mem_map.1 he
  obtain ⟨l, hl, h⟩ :=
    parseEntries_sources root _ x (firstByKey_subset depKey _ x hx)
  exact ⟨l, (mem_unique _ l).2 hl, h⟩

theorem scopeVersion_findSome (r : String) : ∀ levels : List DepMap,
    scopeVersion [] levels r =
      (levels.findSome? (fun m => m.lookup r)).map Dependency.Version
  | [] => rfl
  | m :: rest => by
    have ih := scopeVersion_findSome r rest
    cases hm : m.lookup r with
    | some d => simp [scopeVersion, List.findSome?, hm]
    | none => simp [scopeVersion, List.findSome?, hm, ih]

theorem resolvedVersion_entry (v : Visit) (r : String) :
    resolvedVersion [] v r = (resolvedEntry v r).map Dependency.Version := by
  unfold resolvedVersion resolvedEntry
  cases h : v.node.Dependencies.bind (fun m => m.lookup r) with
  | some d => rfl
  | none => exact scopeVersion_findSome r v.levels

theorem nodeAt_snoc : ∀ (p : List String) (lv : List DepMap) (m : DepMap) (v : Visit)
    (ds : DepMap) (r : String) (D : Dependency),
    nodeAt lv m p = some v → v.node.Dependencies = some ds → ds.lookup r = some D →
    D.Dev = false → nodeAt lv m (p ++ [r]) = some ⟨ds :: v.levels, r, D⟩
  | [], _, _, _, _, _, _, h, _, _, _ => by simp [nodeAt] at h
  | n :: p, lv, m, v, ds, r, D, h, hds, hl, hD => by
    cases hm : m.lookup n with
    | none => simp [nodeAt, hm] at h
    | some d =>
      cases hd : d.Dev with
      | true => simp [nodeAt, hm, hd] at h
      | false =>
        cases p with
        | nil =>
          simp [nodeAt, hm, hd] at h
          subst h
          simp only at hds
          rw [List.singleton_append,
            nodeAt_step lv m ds n d [r] (by simp) hm hd hds, nodeAt_one _ ds r D hl hD]
        | cons a q =>
          cases hdd : d.Dependencies with
          | none => simp [nodeAt, hm, hd, hdd] at h
          | some ds' =>
            have h' : nodeAt (m :: lv) ds' (a :: q) = some v := by
              simpa [nodeAt, hm, hd, hdd] using h
            have ih := nodeAt_snoc (a :: q) (m :: lv) ds' v ds r D h' hds hl hD
            rw [List.cons_append,
              nodeAt_step lv m ds' n d ((a :: q) ++ [r]) (by simp) hm hd hdd]
            exact ih

theorem nodeAt_level_entry : ∀ (p : List String) (lv : List DepMap) (m : DepMap)
    (v : Visit), nodeAt lv m p = some v →
    ∀ l ∈ v.levels, l ∈ lv ∨
      ∀ r D, l.lookup r = some D → D.Dev = false →
        ∃ p' v', nodeAt lv m p' = some v' ∧ v'.name = r ∧ v'.node = D
  | [], _, _, _, h => by simp [nodeAt] at h
  | n :: p, lv, m, v, h => by
    cases hm : m.lookup n with
    | none => simp [nodeAt, hm] at h
    | some d =>
      cases hd : d.Dev with
      | true => simp [nodeAt, hm, hd] at h
      | false =>
        have hself : ∀ r D, m.lookup r = some D → D.Dev = false →
            ∃ p' v', nodeAt lv m p' = some v' ∧ v'.name = r ∧ v'.node = D :=
          fun r D hl hD => ⟨[r], _, nodeAt_one lv m r D hl hD, rfl, rfl⟩
        cases p with
        | nil =>
          simp [nodeAt, hm, hd] at h
          subst h
          intro l hl
          rcases List.mem_cons.1 hl with rfl | hl
          · exact Or.inr hself
          · exact Or.inl hl
        | cons a q =>
          cases hdd : d.Dependencies with
          | none => simp [nodeAt, hm, hd, hdd] at h
          | some ds' =>
            have h' : nodeAt (m :: lv) ds' (a :: q) = some v := by
              simpa [nodeAt, hm, hd, hdd] using h
            intro l hl
            rcases nodeAt_level_entry (a :: q) (m :: lv) ds' v h' l hl with hin | hpath
            · rcases List.mem_cons.1 hin with rfl | hin
              · exact Or.inr hself
              · exact Or.inl hin
            · right
              intro r D hlr hD
              obtain ⟨p', v', hp', hn, hnode⟩ := hpath r D hlr hD
              refine ⟨n :: p', v', ?_, hn, hnode⟩
              rw [nodeAt_step lv m ds' n d p' (nodeAt_ne_nil _ _ _ _ hp') hm hd hdd]
              exact hp'

theorem resolvedEntry_visited (root : DepMap) (p : List String) (v : Visit) (r : String)
    (D : Dependency) (hv : nodeAt [] root p = some v) (hD : resolvedEntry v r = some D)
    (hdev : D.Dev = false) :
    ∃ p' v', nodeAt [] root p' = some v' ∧ v'.name = r ∧ v'.node = D := by
  unfold resolvedEntry at hD
  cases hb : v.node.Dependencies.bind (fun m => m.lookup r) with
  | some d =>
    rw [hb] at hD
    simp only [Option.some.injEq] at hD
    subst hD
    cases hds : v.node.Dependencies with
    | none => rw [hds] at hb; simp at hb
    | some ds =>
      rw [hds] at hb
      have hl : ds.lookup r = some d := by simpa using hb
      exact ⟨p ++ [r], _, nodeAt_snoc p [] root v ds r d hv hds hl hdev, rfl, rfl⟩
  | none =>
    rw [hb] at hD
    obtain ⟨l, hl, hlr⟩ := List.exists_of_findSome?_eq_some hD
    rcases nodeAt_level_entry p [] root v hv l hl with hin | hpath
    · simp at hin
    · exact hpath r D hlr hdev

theorem devFreeMap_mem : ∀ (m : DepMap) (e : String × Dependency),
    devFreeMap m = true → e ∈ m → devFreeDep e.2 = true
  | [], _, _, he => by simp at he
  | (k, d) :: rest, e, h, he => by
    simp only [devFreeMap, Bool.and_eq_true] at h
    rcases List.mem_cons.1 he with rfl | he
    · exact h.1
    · exact devFreeMap_mem rest e h.2 he

theorem devFreeDep_dev (d : Dependency) (h : devFreeDep d = true) : d.Dev = false := by
  obtain ⟨ver, dev, nested, req⟩ := d
  cases nested <;> cases dev <;> simp_all [devFreeDep, Dependency.Dev]

theorem devFreeDep_some (d : Dependency) (ds : DepMap) (h : devFreeDep d = true)
    (hds : d.Dependencies = some ds) : devFreeMap ds = true := by
  obtain ⟨ver, dev, nested, req⟩ := d
  simp only [Dependency.Dependencies] at hds
  subst hds
  simp only [devFreeDep, Bool.and_eq_true] at h
  exact h.2

theorem nodeAt_devFree : ∀ (p : List String) (lv : List DepMap) (m : DepMap) (v : Visit),
    devFreeMap m = true → (∀ l ∈ lv, devFreeMap l = true) → nodeAt lv m p = some v →
    (∀ l ∈ v.levels, devFreeMap l = true) ∧ devFreeDep v.node = true
  | [], _, _, _, _, _, h => by simp [nodeAt] at h
  | n :: p, lv, m, v, hc, hlv, h => by
    cases hl : m.lookup n with
    | none => simp [nodeAt, hl] at h
    | some d =>
      have hd' := devFreeMap_mem m (n, d) hc (mem_of_lookup m n d hl)
      have hlv' : ∀ l ∈ m :: lv, devFreeMap l = true := by
        intro l hl'
        rcases List.mem_cons.1 hl' with rfl | hl'
        · exact hc
        · exact hlv l hl'
      cases hd : d.Dev with
      | true => simp [nodeAt, hl, hd] at h
      | false =>
        cases p with
        | nil =>
          simp [nodeAt, hl, hd] at h
          subst h
          exact ⟨hlv', hd'⟩
        | cons a p =>
          cases hds : d.Dependencies with
          | none => simp [nodeAt, hl, hd, hds] at h
          | some ds =>
            simp only [nodeAt, hl, hd, hds] at h
            exact nodeAt_devFree (a :: p) (m :: lv) ds v (devFreeDep_some d ds hd' hds) hlv'
              (by simpa using h)

theorem resolvedEntry_devFree (v : Visit) (r : String) (D : Dependency)
    (hlv : ∀ l ∈ v.levels, devFreeMap l = true) (hnode : devFreeDep v.node = true)
    (hD : resolvedEntry v r = some D) : D.Dev = false := by
  unfold resolvedEntry at hD
  cases hb : v.node.Dependencies.bind (fun m => m.lookup r) with
  | some d =>
    rw [hb] at hD
    simp only [Option.some.injEq] at hD
    subst hD
    cases hds : v.node.Dependencies with
    | none => rw [hds] at hb; simp at hb
    | some ds =>
      rw [hds] at hb
      have hl : ds.lookup r = some d := by simpa using hb
      exact devFreeDep_dev d
        (devFreeMap_mem ds (r, d) (devFreeDep_some v.node ds hnode hds) (mem_of_lookup ds r d hl))
  | none =>
    rw [hb] at hD
    obtain ⟨l, hl, hlr⟩ := List.exists_of_findSome?_eq_some hD
    exact devFreeDep_dev D (devFreeMap_mem l (r, D) (hlv l hl) (mem_of_lookup l r D hlr))

/-- C17: in a lock tree without dev entries, every target of every edge returned by
`Parse` is `ID name version` of a library returned by `Parse`. -/
theorem closed_graph_without_dev (root : DepMap) (hwf : wfMap root = true)
    (hfree : devFreeMap root = true) :
    ∃ libs deps, Parse (.ok ⟨root⟩) = .ok (libs, deps) ∧
      ∀ e ∈ deps, ∀ t ∈ e.DependsOn, ∃ l ∈ libs, t = ID l.Name l.Version := by
  refine ⟨unique (parse root []).libs, uniqueDeps (parse root []).deps, rfl, ?_⟩
  intro e he t ht
  rw [uniqueDeps_eq_firstByKey] at he
  obtain ⟨x, hx, rfl⟩ := List.mem_map.1 he
  have hx' := firstByKey_subset depKey _ x hx
  have ht' : t ∈ x.DependsOn := (mem_sortStrings _ _).1 ht
  obtain ⟨p, v, hv, _, rfl⟩ := (mem_parse_deps [] root hwf x).1 hx'
  obtain ⟨r, ver, _, hres, rfl⟩ := (mem_targets_iff [] v t).1 ht'
  rw [resolvedVersion_entry] at hres
  obtain ⟨D, hD, rfl⟩ := Option.map_eq_some'.1 hres
  obtain ⟨h1, h2⟩ := nodeAt_devFree p [] root v hfree (by simp) hv
  have hdev := resolvedEntry_devFree v r D h1 h2 hD
  obtain ⟨p', v', hp', hn, hnode⟩ := resolvedEntry_visited root p v r D hv hD hdev
  refine ⟨⟨r, D.Version⟩, ?_, rfl⟩
  rw [mem_unique, mem_parse_libs [] root hwf]
  exact ⟨p', v', hp', by simp [libOf, hn, hnode]⟩

theorem closed_graph_without_dev_witness :
    ∃ libs deps, Parse (.ok ⟨nestedLock⟩) = .ok (libs, deps) ∧
      ∀ e ∈ deps, ∀ t ∈ e.DependsOn, ∃ l ∈ libs, t = ID l.Name l.Version :=
  closed_graph_without_dev nestedLock (by decide) (by decide)

/-- C13 (as stated, refuted): in `devRequiredLock` the requirement `tool` of the visited
production entry `app` resolves to the dev entry `tool@2.0.0`, and `Parse` returns the
edge `app@1.0.0 -> [tool@2.0.0]` but no library `tool@2.0.0`. -/
theorem dev_requirement_not_emitted :
    nodeAt [] devRequiredLock ["app"] =
        some ⟨[devRequiredLock], "app", .mk "1.0.0" false none [("tool", "^2.0.0")]⟩ ∧
      resolvedEntry ⟨[devRequiredLock], "app", .mk "1.0.0" false none [("tool", "^2.0.0")]⟩
        "tool" = some (.mk "2.0.0" true none []) ∧
      Parse (.ok ⟨devRequiredLock⟩) =
        .ok ([⟨"app", "1.0.0"⟩], [⟨"app@1.0.0", ["tool@2.0.0"]⟩]) ∧
      (⟨"tool", "2.0.0"⟩ : Library) ∉ [(⟨"app", "1.0.0"⟩ : Library)] :=
  ⟨rfl, rfl, rfl, by decide⟩

/-- C13 (amended): when a requirement `r` of a visited position resolves to an entry `D`
with `Dev = true`, the identifier `ID r D.Version` is a target of the position's edge
returned by `parse`, and the library `(r, D.Version)` is in the libraries returned by
`Parse` exactly when that pair is the name and version of some position reached through
non-dev entries only. -/
theorem dev_target_library_iff (root : DepMap) (p : List String) (v : Visit) (r : String)
    (D : Dependency) (hwf : wfMap root = true) (hv : nodeAt [] root p = some v)
    (hr : r ∈ v.node.Requires.map Prod.fst) (hD : resolvedEntry v r = some D)
    (_hdev : D.Dev = true) :
    (∃ e ∈ (parse root []).deps,
      e.ID = ID v.name v.node.Version ∧ ID r D.Version ∈ e.DependsOn) ∧
    ∃ libs deps, Parse (.ok ⟨root⟩) = .ok (libs, deps) ∧
      ((⟨r, D.Version⟩ : Library) ∈ libs ↔
        ∃ p' v', nodeAt [] root p' = some v' ∧ v'.name = r ∧
          v'.node.Version = D.Version) := by
  have hres : resolvedVersion [] v r = some D.Version := by
    rw [resolvedVersion_entry, hD]; rfl
  obtain ⟨e, he, h1, _, h3⟩ := edge_of_visit [] root p v r D.Version hwf hv hr hres
  refine ⟨⟨e, he, h1, h3⟩, unique (parse root []).libs, uniqueDeps (parse root []).deps,
    rfl, ?_⟩
  rw [mem_unique, mem_parse_libs [] root hwf]
  constructor
  · rintro ⟨p', v', hp', hl⟩
    simp only [libOf, Library.mk.injEq] at hl
    exact ⟨p', v', hp', hl.1.symm, hl.2.symm⟩
  · rintro ⟨p', v', hp', hn, hver⟩
    exact ⟨p', v', hp', by simp [libOf, hn, hver]⟩

theorem dev_target_library_iff_witness :
    (∃ e ∈ (parse devRequiredLock []).deps,
      e.ID = ID "app" "1.0.0" ∧ ID "tool" "2.0.0" ∈ e.DependsOn) ∧
    ∃ libs deps, Parse (.ok ⟨devRequiredLock⟩) = .ok (libs, deps) ∧
      ((⟨"tool", "2.0.0"⟩ : Library) ∈ libs ↔
        ∃ p' v', nodeAt [] devRequiredLock p' = some v' ∧ v'.name = "tool" ∧
          v'.node.Version = "2.0.0") :=
  dev_target_library_iff devRequiredLock ["app"]
    ⟨[devRequiredLock], "app", .mk "1.0.0" false none [("tool", "^2.0.0")]⟩
    "tool" (.mk "2.0.0" true none []) (by decide) rfl (by decide) rfl rfl

theorem walk_eta (w : Walk) (vs : Versions) (h : w.versions = vs) :
    (⟨w.libs, w.deps, vs⟩ : Walk) = w := by
  cases w
  simp only at h
  rw [h]

theorem parseEntries_versions : ∀ (es : List (String × Dependency)) (vs : Versions),
    (parseEntries es vs).versions = vs
  | [], _ => rfl
  | (k, d) :: rest, vs => by
    simp only [parseEntries, parseDep_versions]
    exact parseEntries_versions rest vs

mutual
theorem loopWith_parseFuel :
    ∀ (es : List (String × Dependency)) (fuel : Nat) (vs : Versions),
      depthMap es ≤ fuel →
      loopWith (parseFuel fuel) vs es =
        some ((parseEntries es vs).libs, (parseEntries es vs).deps)
  | [], _, _, _ => rfl
  | (k, d) :: rest, fuel, vs, h => by
    have hmax : depthDep d ≤ fuel ∧ depthMap rest ≤ fuel := by
      simp only [depthMap] at h
      exact ⟨le_trans (le_max_left _ _) h, le_trans (le_max_right _ _) h⟩
    have hrest := loopWith_parseFuel rest fuel vs hmax.2
    have hcall := parseFuel_nested d fuel vs hmax.1
    obtain ⟨ver, dev, nested, req⟩ := d
    cases dev with
    | true =>
      simp only [loopWith, Dependency.Dev, if_true, hrest, parseEntries, parseDep]
      simp
    | false =>
      cases nested with
      | none =>
        simp only [loopWith, Dependency.Dev, Dependency.Dependencies, Dependency.Requires,
          Dependency.Version, Bool.false_eq_true, if_false, hrest, parseEntries, parseDep]
        simp
      | some ds =>
        have hc := hcall ds rfl
        simp only [loopWith, Dependency.Dev, Dependency.Dependencies, Dependency.Requires,
          Dependency.Version, Bool.false_eq_true, if_false, hrest, parseEntries, parseDep, hc]
        simp [parse]
theorem parseFuel_nested :
    ∀ (d : Dependency) (fuel : Nat) (vs : Versions), depthDep d ≤ fuel →
      ∀ ds, d.Dependencies = some ds →
        parseFuel fuel ds (clone vs) = some (parse ds (clone vs))
  | .mk ver dev none req, _, _, _, ds, hds => by simp [Dependency.Dependencies] at hds
  | .mk ver dev (some ds') req, fuel, vs, h, ds, hds => by
    simp only [Dependency.Dependencies, Option.some.injEq] at hds
    subst hds
    simp only [depthDep] at h
    cases fuel with
    | zero => omega
    | succ f =>
      have ih := loopWith_parseFuel ds' f (recordVersions ds' (clone vs)) (by omega)
      simp only [parseFuel, ih, Option.map_some', parse]
      exact congrArg some (walk_eta _ _ (parseEntries_versions ds' _))
end

/-- C14: `parse` returns on every lock tree and every scope.  The source function,
run with any bound on the depth of nested calls that exceeds the nesting depth of the
`Dependencies` maps, returns the value of `parse`; that depth does not mention
`Requires`, and on the cyclic example (`a` requires `b`, `b` requires `a`) one level of
calls suffices. -/
theorem parse_terminates (root : DepMap) (versions : Versions) (extra : Nat) :
    parseFuel (depthMap root + 1 + extra) root versions = some (parse root versions) ∧
    (∀ ver dev nested req req',
      depthDep (.mk ver dev nested req) = depthDep (.mk ver dev nested req')) ∧
    depthMap cyclicLock = 0 ∧
    parseFuel 1 cyclicLock [] =
      some ⟨[⟨"a", "1.0.0"⟩, ⟨"b", "1.0.0"⟩],
            [⟨"a@1.0.0", ["b@1.0.0"]⟩, ⟨"b@1.0.0", ["a@1.0.0"]⟩],
            recordVersions cyclicLock []⟩ := by
  refine ⟨?_, ?_, rfl, rfl⟩
  · have h := loopWith_parseFuel root (depthMap root + extra) (recordVersions root versions)
      (by omega)
    have hf : depthMap root + 1 + extra = (depthMap root + extra) + 1 := by omega
    rw [hf]
    simp only [parseFuel, h, Option.map_some', parse]
    exact congrArg some (walk_eta _ _ (parseEntries_versions root _))
  · intro ver dev nested req req'
    cases nested <;> rfl

theorem safeMap_mem : ∀ (m : DepMap) (e : String × Dependency),
    safeMap m = true → e ∈ m → keySafe e.1 = true ∧ safeDep e.2 = true
  | [], _, _, he => by simp at he
  | (k, d) :: rest, e, h, he => by
    simp only [safeMap, Bool.and_eq_true] at h
    rcases List.mem_cons.1 he with rfl | he
    · exact ⟨h.1.1, h.1.2⟩
    · exact safeMap_mem rest e h.2 he

theorem safeDep_version (d : Dependency) (h : safeDep d = true) :
    keySafe d.Version = true := by
  obtain ⟨ver, dev, nested, req⟩ := d
  cases nested with
  | none => simpa [safeDep] using h
  | some ds =>
    simp only [safeDep, Bool.and_eq_true] at h
    exact h.1

theorem safeDep_some (d : Dependency) (ds : DepMap) (h : safeDep d = true)
    (hds : d.Dependencies = some ds) : safeMap ds = true := by
  obtain ⟨ver, dev, nested, req⟩ := d
  simp only [Dependency.Dependencies] at hds
  subst hds
  simp only [safeDep, Bool.and_eq_true] at h
  exact h.2

theorem safeMap_lookup (m : DepMap) (r : String) (d : Dependency)
    (h : safeMap m = true) (hl : m.lookup r = some d) :
    keySafe r = true ∧ keySafe d.Version = true := by
  have := safeMap_mem m (r, d) h (mem_of_lookup m r d hl)
  exact ⟨this.1, safeDep_version d this.2⟩

theorem nodeAt_safe : ∀ (p : List String) (lv : List DepMap) (m : DepMap) (v : Visit),
    safeMap m = true → (∀ l ∈ lv, safeMap l = true) → nodeAt lv m p = some v →
    (∀ l ∈ v.levels, safeMap l = true) ∧ safeDep v.node = true ∧
      keySafe v.name = true
  | [], _, _, _, _, _, h => by simp [nodeAt] at h
  | n :: p, lv, m, v, hc, hlv, h => by
    cases hl : m.lookup n with
    | none => simp [nodeAt, hl] at h
    | some d =>
      have hd' := safeMap_mem m (n, d) hc (mem_of_lookup m n d hl)
      have hlv' : ∀ l ∈ m :: lv, safeMap l = true := by
        intro l hl'
        rcases List.mem_cons.1 hl' with rfl | hl'
        · exact hc
        · exact hlv l hl'
      cases hd : d.Dev with
      | true => simp [nodeAt, hl, hd] at h
      | false =>
        cases p with
        | nil =>
          simp [nodeAt, hl, hd] at h
          subst h
          exact ⟨hlv', hd'.2, hd'.1⟩
        | cons a p =>
          cases hds : d.Dependencies with
          | none => simp [nodeAt, hl, hd, hds] at h
          | some ds =>
            simp only [nodeAt, hl, hd, hds] at h
            exact nodeAt_safe (a :: p) (m :: lv) ds v (safeDep_some d ds hd'.2 hds) hlv'
              (by simpa using h)

theorem resolvedEntry_safe (v : Visit) (r : String) (D : Dependency)
    (hlv : ∀ l ∈ v.levels, safeMap l = true) (hnode : safeDep v.node = true)
    (hD : resolvedEntry v r = some D) : keySafe r = true ∧ keySafe D.Version = true := by
  unfold resolvedEntry at hD
  cases hb : v.node.Dependencies.bind (fun m => m.lookup r) with
  | some d =>
    rw [hb] at hD
    simp only [Option.some.injEq] at hD
    subst hD
    cases hds : v.node.Dependencies with
    | none => rw [hds] at hb; simp at hb
    | some ds =>
      rw [hds] at hb
      exact safeMap_lookup ds r d (safeDep_some v.node ds hnode hds) (by simpa using hb)
  | none =>
    rw [hb] at hD
    obtain ⟨l, hl, hlr⟩ := List.exists_of_findSome?_eq_some hD
    exact safeMap_lookup l r D (hlv l hl) hlr

theorem cleanEdge_of_safe_visit (v : Visit)
    (hlv : ∀ l ∈ v.levels, safeMap l = true) (hnode : safeDep v.node = true)
    (hname : keySafe v.name = true) :
    CleanEdge ⟨ID v.name v.node.Version, targets [] v⟩ := by
  have hver := safeDep_version v.node hnode
  simp only [keySafe, decide_eq_true_eq] at hname hver
  refine ⟨?_, ?_⟩
  · show ':' ∉ (ID v.name v.node.Version).data
    rw [ID_data]
    simp only [List.mem_append, List.mem_cons, not_or]
    exact ⟨hname.2, by decide, hver.2⟩
  · intro t ht
    obtain ⟨r, ver, _, hres, rfl⟩ := (mem_targets_iff [] v t).1 ht
    rw [resolvedVersion_entry] at hres
    obtain ⟨D, hD, rfl⟩ := Option.map_eq_some'.1 hres
    obtain ⟨h1, h2⟩ := resolvedEntry_safe v r D hlv hnode hD
    simp only [keySafe, decide_eq_true_eq] at h1 h2
    refine ⟨?_, ?_⟩
    · intro h
      have := congrArg String.data h
      rw [ID_data] at this
      simp at this
    · rw [ID_data]
      simp only [List.mem_append, List.mem_cons, not_or]
      exact ⟨h1.1, by decide, h2.1⟩

theorem parse_deps_safe (root : DepMap) (hwf : wfMap root = true)
    (hsafe : safeMap root = true) : ∀ e ∈ (parse root []).deps, CleanEdge e := by
  intro e he
  obtain ⟨p, v, hv, _, rfl⟩ := (mem_parse_deps [] root hwf e).1 he
  obtain ⟨h1, h2, h3⟩ := nodeAt_safe p [] root v hsafe (by simp) hv
  exact cleanEdge_of_safe_visit v h1 h2 h3

theorem mem_of_lookup_kv {β : Type} : ∀ (m : List (String × β)) (k : String) (b : β),
    m.lookup k = some b → (k, b) ∈ m
  | [], _, _, h => by simp at h
  | (a, c) :: rest, k, b, h => by
    by_cases hk : k = a
    · subst hk
      simp [List.lookup] at h
      simp [h]
    · have hb : (k == a) = false := by simpa using hk
      simp only [List.lookup, hb] at h
      exact List.mem_cons_of_mem _ (mem_of_lookup_kv rest k b h)

theorem lookup_of_mem_kv {β : Type} : ∀ (m : List (String × β)) (k : String) (b : β),
    (m.map Prod.fst).Nodup → (k, b) ∈ m → m.lookup k = some b
  | [], _, _, _, h => by simp at h
  | (a, c) :: rest, k, b, hnd, h => by
    have hnd' : a ∉ rest.map Prod.fst ∧ (rest.map Prod.fst).Nodup := by simpa using hnd
    rcases List.mem_cons.1 h with heq | hmem
    · cases heq
      simp [List.lookup]
    · have hk : k ≠ a := by
        rintro rfl
        exact hnd'.1 (List.mem_map.2 ⟨(k, b), hmem, rfl⟩)
      have hb : (k == a) = false := by simpa using hk
      simp only [List.lookup, hb]
      exact lookup_of_mem_kv rest k b hnd'.2 hmem

theorem lookup_perm_kv {β : Type} {m m' : List (String × β)} (h : m.Perm m')
    (hnd : (m.map Prod.fst).Nodup) (r : String) : m'.lookup r = m.lookup r := by
  have hnd' : (m'.map Prod.fst).Nodup := (h.map Prod.fst).nodup_iff.1 hnd
  cases hl : m.lookup r with
  | some d => exact lookup_of_mem_kv m' r d hnd' (h.mem_iff.1 (mem_of_lookup_kv m r d hl))
  | none =>
    cases hl' : m'.lookup r with
    | none => rfl
    | some d =>
      have := lookup_of_mem_kv m r d hnd (h.mem_iff.2 (mem_of_lookup_kv m' r d hl'))
      rw [hl] at this
      cases this

theorem depPerm_fields (d1 d2 : Dependency) (h : depPerm d1 d2) :
    d2.Version = d1.Version ∧ d2.Dev = d1.Dev ∧ d1.Requires.Perm d2.Requires := by
  obtain ⟨v1, dev1, n1, r1⟩ := d1
  cases n1 with
  | none =>
    simp only [depPerm] at h
    exact ⟨h.1, h.2.1, h.2.2.1⟩
  | some n1 =>
    simp only [depPerm] at h
    exact ⟨h.1, h.2.1, h.2.2.1⟩

theorem mapPerm_versions : ∀ (m1 m2 : DepMap), mapPerm m1 m2 →
    (m1.map (fun e => (e.1, e.2.Version))).Perm (m2.map (fun e => (e.1, e.2.Version)))
  | [], m2, h => by
    simp only [mapPerm] at h
    rw [h]
  | (k, d1) :: m1, m2, h => by
    simp only [mapPerm] at h
    obtain ⟨pre, d2, post, rfl, hd, hm⟩ := h
    have ih := mapPerm_versions m1 (pre ++ post) hm
    have hv := (depPerm_fields d1 d2 hd).1
    simp only [List.map_cons, List.map_append] at ih ⊢
    rw [hv]
    exact (List.Perm.cons _ ih).trans List.perm_middle.symm

theorem mapPerm_nodup (m1 m2 : DepMap) (h : mapPerm m1 m2)
    (hnd : (m1.map Prod.fst).Nodup) : (m2.map Prod.fst).Nodup := by
  have hp := (mapPerm_versions m1 m2 h).map Prod.fst
  simp only [List.map_map] at hp
  exact hp.nodup_iff.1 hnd

theorem mapPerm_lookup (m1 m2 : DepMap) (h : mapPerm m1 m2)
    (hnd : (m1.map Prod.fst).Nodup) (x : String) :
    (m2.lookup x).map Dependency.Version = (m1.lookup x).map Dependency.Version := by
  rw [lookup_map_version, lookup_map_version]
  apply lookup_perm_kv (mapPerm_versions m1 m2 h)
  simpa [List.map_map] using hnd

theorem recordVersions_perm (m1 m2 : DepMap) (vs1 vs2 : Versions) (h : mapPerm m1 m2)
    (hnd : (m1.map Prod.fst).Nodup) (hvs : ∀ r, vs1.lookup r = vs2.lookup r) (r : String) :
    (recordVersions m1 vs1).lookup r = (recordVersions m2 vs2).lookup r := by
  rw [lookup_recordVersions m1 vs1 r hnd,
    lookup_recordVersions m2 vs2 r (mapPerm_nodup m1 m2 h hnd)]
  have hl := mapPerm_lookup m1 m2 h hnd r
  cases h1 : m1.lookup r with
  | none =>
    cases h2 : m2.lookup r with
    | none => exact hvs r
    | some d2 => rw [h1, h2] at hl; simp at hl
  | some d1 =>
    cases h2 : m2.lookup r with
    | none => rw [h1, h2] at hl; simp at hl
    | some d2 =>
      rw [h1, h2] at hl
      simp only [Option.map_some', Option.some.injEq] at hl
      simp [hl]

theorem parseEntries_append : ∀ (a b : List (String × Dependency)) (vs : Versions),
    parseEntries (a ++ b) vs =
      ⟨(parseEntries a vs).libs ++ (parseEntries b vs).libs,
       (parseEntries a vs).deps ++ (parseEntries b vs).deps, vs⟩
  | [], b, vs => by
    simp only [List.nil_append, parseEntries]
    exact (walk_eta _ _ (parseEntries_versions b vs)).symm
  | (k, d) :: a, b, vs => by
    have ih := parseEntries_append a b vs
    simp only [List.cons_append, parseEntries, parseDep_versions, List.append_eq, ih,
      List.append_assoc]

theorem resolveRequires_perm (n1 n2 : Option DepMap) (vs1 vs2 : Versions)
    (r1 r2 : List (String × String)) (hr : r1.Perm r2)
    (hn : ∀ x, (n1.bind (fun m => m.lookup x)).map Dependency.Version =
      (n2.bind (fun m => m.lookup x)).map Dependency.Version)
    (hvs : ∀ r, vs1.lookup r = vs2.lookup r) :
    (resolveRequires n1 vs1 r1).Perm (resolveRequires n2 vs2 r2) := by
  rw [resolveRequires_congr n1 n2 vs1 hn r1, resolveRequires_eq, resolveRequires_eq]
  simp only [hvs]
  exact hr.filterMap _

theorem ownEdge_perm (id : String) (t1 t2 : List String) (h : t1.Perm t2) :
    (if t1.length > 0 then [(⟨id, t1⟩ : Edge)] else []).map sortedEdge =
      (if t2.length > 0 then [(⟨id, t2⟩ : Edge)] else []).map sortedEdge := by
  rw [h.length_eq]
  split
  · simp [sortedEdge, sortStrings_eq_of_perm h]
  · rfl

mutual
theorem parseEntries_perm :
    ∀ (m1 : List (String × Dependency)) (m2 : DepMap) (vs1 vs2 : Versions),
      mapPerm m1 m2 → (∀ r, vs1.lookup r = vs2.lookup r) → wfMap m1 = true →
      (parseEntries m1 vs1).libs.Perm (parseEntries m2 vs2).libs ∧
        ((parseEntries m1 vs1).deps.map sortedEdge).Perm
          ((parseEntries m2 vs2).deps.map sortedEdge)
  | [], m2, vs1, vs2, h, _, _ => by
    simp only [mapPerm] at h
    subst h
    simp [parseEntries]
  | (k, d1) :: m1, m2, vs1, vs2, h, hvs, hwf => by
    simp only [mapPerm] at h
    obtain ⟨pre, d2, post, rfl, hd, hm⟩ := h
    obtain ⟨_, hw2, hw3⟩ := (wfMap_cons k d1 m1).1 hwf
    have ih := parseEntries_perm m1 (pre ++ post) vs1 vs2 hm hvs hw3
    have hq := parseDep_perm d1 d2 k vs1 vs2 hd hvs hw2
    rw [parseEntries_append] at ih
    rw [parseEntries_append]
    simp only [parseEntries, parseDep_versions, List.map_append] at ih hq ⊢
    constructor
    · exact (hq.1.append ih.1).trans (List.perm_append_comm_assoc _ _ _)
    · exact (hq.2.append ih.2).trans (List.perm_append_comm_assoc _ _ _)
theorem parseDep_perm :
    ∀ (d1 d2 : Dependency) (k : String) (vs1 vs2 : Versions),
      depPerm d1 d2 → (∀ r, vs1.lookup r = vs2.lookup r) → wfDep d1 = true →
      (parseDep k d1 vs1).libs.Perm (parseDep k d2 vs2).libs ∧
        ((parseDep k d1 vs1).deps.map sortedEdge).Perm
          ((parseDep k d2 vs2).deps.map sortedEdge)
  | .mk v dev none r1, d2, k, vs1, vs2, h, hvs, _ => by
    obtain ⟨v2, dev2, n2, r2⟩ := d2
    simp only [depPerm, Dependency.Version, Dependency.Dev, Dependency.Requires,
      Dependency.Dependencies] at h
    obtain ⟨rfl, rfl, hr, rfl⟩ := h
    have ht := resolveRequires_perm none none vs1 vs2 r1 r2 hr (fun _ => rfl) hvs
    cases dev2 with
    | true => simp [parseDep]
    | false =>
      simp only [parseDep, Bool.false_eq_true, if_false]
      exact ⟨List.Perm.refl _, by rw [ownEdge_perm _ _ _ ht]⟩
  | .mk v dev (some n1) r1, d2, k, vs1, vs2, h, hvs, hwf => by
    obtain ⟨v2, dev2, n2, r2⟩ := d2
    simp only [depPerm, Dependency.Version, Dependency.Dev, Dependency.Requires,
      Dependency.Dependencies] at h
    obtain ⟨rfl, rfl, hr, n2', hn2, hmap⟩ := h
    subst hn2
    have hwf' : wfMap n1 = true := by simpa [wfDep] using hwf
    have hnd := wfMap_nodup n1 hwf'
    have ht := resolveRequires_perm (some n1) (some n2') vs1 vs2 r1 r2 hr
      (fun x => by
        simp only [Option.some_bind]
        exact (mapPerm_lookup n1 n2' hmap hnd x).symm) hvs
    have ih := parseEntries_perm n1 n2' (recordVersions n1 (clone vs1))
      (recordVersions n2' (clone vs2)) hmap
      (recordVersions_perm n1 n2' vs1 vs2 hmap hnd hvs) hwf'
    cases dev2 with
    | true => simp [parseDep]
    | false =>
      simp only [parseDep, Bool.false_eq_true, if_false, List.map_append]
      refine ⟨List.Perm.cons _ ih.1, ?_⟩
      rw [ownEdge_perm _ _ _ ht]
      exact List.Perm.append_left _ ih.2
end

theorem parse_perm (root root' : DepMap) (hwf : wfMap root = true)
    (hperm : mapPerm root root') :
    (parse root []).libs.Perm (parse root' []).libs ∧
      ((parse root []).deps.map sortedEdge).Perm ((parse root' []).deps.map sortedEdge) :=
  parseEntries_perm root root' _ _ hperm
    (recordVersions_perm root root' [] [] hperm (wfMap_nodup root hwf) (fun _ => rfl)) hwf

theorem unique_perm (l1 l2 : List Library) (h : l1.Perm l2) :
    (unique l1).Perm (unique l2) := by
  rw [List.perm_ext_iff_of_nodup (unique_nodup l1) (unique_nodup l2)]
  intro x
  rw [mem_unique, mem_unique, h.mem_iff]

theorem cleanEdge_sortedEdge (x y : Edge) (h : sortedEdge x = sortedEdge y)
    (hx : CleanEdge x) : CleanEdge y := by
  simp only [sortedEdge, Edge.mk.injEq] at h
  refine ⟨by rw [← h.1]; exact hx.1, ?_⟩
  intro t ht
  apply hx.2 t
  rw [← mem_sortStrings, h.2, mem_sortStrings]
  exact ht

theorem mem_uniqueDeps_clean (deps : List Edge) (hclean : ∀ d ∈ deps, CleanEdge d)
    (o : Edge) : o ∈ uniqueDeps deps ↔ o ∈ deps.map sortedEdge := by
  rw [uniqueDeps_eq_firstByKey]
  constructor
  · intro ho
    obtain ⟨d, hd, rfl⟩ := List.mem_map.1 ho
    exact List.mem_map_of_mem _ (firstByKey_subset depKey deps d hd)
  · intro ho
    obtain ⟨x, hx, rfl⟩ := List.mem_map.1 ho
    have hk : depKey x ∈ (firstByKey depKey deps).map depKey :=
      (firstByKey_keys depKey deps _).2 (List.mem_map_of_mem _ hx)
    obtain ⟨d, hd, hdk⟩ := List.mem_map.1 hk
    have hdm : d ∈ deps := firstByKey_subset depKey deps d hd
    obtain ⟨hID, hsort⟩ := depKey_inj d x (hclean d hdm) (hclean x hx) hdk
    have : sortedEdge x = sortedEdge d := by simp [sortedEdge, hID, hsort]
    rw [this]
    exact List.mem_map_of_mem _ hd

theorem uniqueDeps_nodup (deps : List Edge) : (uniqueDeps deps).Nodup := by
  have hk : ((uniqueDeps deps).map depKey).Nodup := by
    rw [uniqueDeps_eq_firstByKey, List.map_map]
    have : depKey ∘ sortedEdge = depKey := funext depKey_sortedEdge
    rw [this]
    exact firstByKey_nodup depKey deps
  exact List.Nodup.of_map _ hk

theorem uniqueDeps_perm (e1 e2 : List Edge) (hclean : ∀ d ∈ e1, CleanEdge d)
    (h : (e1.map sortedEdge).Perm (e2.map sortedEdge)) :
    (uniqueDeps e1).Perm (uniqueDeps e2) := by
  have hclean2 : ∀ d ∈ e2, CleanEdge d := by
    intro d hd
    have : sortedEdge d ∈ e1.map sortedEdge := h.mem_iff.2 (List.mem_map_of_mem _ hd)
    obtain ⟨x, hx, hxe⟩ := List.mem_map.1 this
    exact cleanEdge_sortedEdge x d hxe (hclean x hx)
  rw [List.perm_ext_iff_of_nodup (uniqueDeps_nodup e1) (uniqueDeps_nodup e2)]
  intro o
  rw [mem_uniqueDeps_clean e1 hclean, mem_uniqueDeps_clean e2 hclean2, h.mem_iff]

/-- C16 (as stated, refuted): `collisionLockSwapped` is `collisionLock` with two entries
in the opposite order, and `Parse` returns the edge `x@1 -> [a@1, b@1]` for one and the
edge `x@1 -> [a@1,b@1]` (one target) for the other. -/
theorem order_changes_edges :
    mapPerm collisionLock collisionLockSwapped ∧
      Parse (.ok ⟨collisionLock⟩) =
        .ok ([⟨"a", "1"⟩, ⟨"b", "1"⟩, ⟨"a@1,b", "1"⟩, ⟨"x", "1"⟩, ⟨"q", "1"⟩],
             [⟨"x@1", ["a@1", "b@1"]⟩]) ∧
      Parse (.ok ⟨collisionLockSwapped⟩) =
        .ok ([⟨"a", "1"⟩, ⟨"b", "1"⟩, ⟨"a@1,b", "1"⟩, ⟨"q", "1"⟩, ⟨"x", "1"⟩],
             [⟨"x@1", ["a@1,b@1"]⟩]) ∧
      ¬ ([(⟨"x@1", ["a@1", "b@1"]⟩ : Edge)]).Perm [⟨"x@1", ["a@1,b@1"]⟩] := by
  refine ⟨?_, rfl, rfl, by decide⟩
  simp only [collisionLock, collisionLockSwapped, mapPerm]
  refine ⟨[], _, _, rfl, ?_, [], _, _, rfl, ?_, [], _, _, rfl, ?_,
    [("q", .mk "1" false (some [("x", .mk "1" false none [("a@1,b", "*")])]) [])], _, [],
    rfl, ?_, [], _, [], rfl, ?_, rfl⟩
  · simp [depPerm, Dependency.Version, Dependency.Dev, Dependency.Requires,
      Dependency.Dependencies]
  · simp [depPerm, Dependency.Version, Dependency.Dev, Dependency.Requires,
      Dependency.Dependencies]
  · simp [depPerm, Dependency.Version, Dependency.Dev, Dependency.Requires,
      Dependency.Dependencies]
  · simp [depPerm, Dependency.Version, Dependency.Dev, Dependency.Requires,
      Dependency.Dependencies]
  · simp only [depPerm, Dependency.Version, Dependency.Dev, Dependency.Requires,
      Dependency.Dependencies, mapPerm, true_and, List.Perm.refl]
    refine ⟨_, rfl, [], _, [], rfl, ?_, rfl⟩
    simp [depPerm, Dependency.Version, Dependency.Dev, Dependency.Requires,
      Dependency.Dependencies]

theorem nestedLock_shuffled : mapPerm nestedLock nestedLockShuffled := by
  simp only [nestedLock, nestedLockShuffled, mapPerm]
  refine ⟨[("ms", .mk "2.0.0" false none [])], _, _, rfl, ?_, [], _, _, rfl, ?_,
    [], _, _, rfl, ?_, [], _, [], rfl, ?_, rfl⟩
  · simp [depPerm, Dependency.Version, Dependency.Dev, Dependency.Requires,
      Dependency.Dependencies]
  · simp [depPerm, Dependency.Version, Dependency.Dev, Dependency.Requires,
      Dependency.Dependencies]
  · simp only [depPerm, Dependency.Version, Dependency.Dev, Dependency.Requires,
      Dependency.Dependencies, mapPerm, true_and]
    refine ⟨List.Perm.swap _ _ _, _, rfl, [], _, [], rfl, ?_, rfl⟩
    simp [depPerm, Dependency.Version, Dependency.Dev, Dependency.Requires,
      Dependency.Dependencies]
  · simp only [depPerm, Dependency.Version, Dependency.Dev, Dependency.Requires,
      Dependency.Dependencies, mapPerm, true_and, List.Perm.refl]
    refine ⟨_, rfl, [], _, [], rfl, ?_, rfl⟩
    simp only [depPerm, Dependency.Version, Dependency.Dev, Dependency.Requires,
      Dependency.Dependencies, mapPerm, true_and, List.Perm.refl]
    refine ⟨_, rfl, [], _, [], rfl, ?_, rfl⟩
    simp [depPerm, Dependency.Version, Dependency.Dev, Dependency.Requires,
      Dependency.Dependencies]

/-- C16 (amended): for a lock tree and the same tree with the entries of any
`Dependencies` or `Requires` map listed in another order, the library lists returned by
`Parse` are permutations of each other, and so are the edge lists when the names and
versions of the tree contain neither `,` nor `:`. -/
theorem order_independent (root root' : DepMap) (hwf : wfMap root = true)
    (hperm : mapPerm root root') :
    ∃ libs deps libs' deps',
      Parse (.ok ⟨root⟩) = .ok (libs, deps) ∧ Parse (.ok ⟨root'⟩) = .ok (libs', deps') ∧
      libs.Perm libs' ∧ (safeMap root = true → deps.Perm deps') := by
  obtain ⟨hl, he⟩ := parse_perm root root' hwf hperm
  refine ⟨_, _, _, _, rfl, rfl, unique_perm _ _ hl, ?_⟩
  intro hsafe
  exact uniqueDeps_perm _ _ (parse_deps_safe root hwf hsafe) he

theorem order_independent_witness :
    ∃ libs deps libs' deps',
      Parse (.ok ⟨nestedLock⟩) = .ok (libs, deps) ∧
      Parse (.ok ⟨nestedLockShuffled⟩) = .ok (libs', deps') ∧
      libs.Perm libs' ∧ deps.Perm deps' := by
  obtain ⟨libs, deps, libs', deps', h1, h2, h3, h4⟩ :=
    order_independent nestedLock nestedLockShuffled (by decide) nestedLock_shuffled
  exact ⟨libs, deps, libs', deps', h1, h2, h3, h4 (by decide)⟩

theorem uniqueDeps_targets_sorted_witness :
    (["b", "c"] : List String).Sorted (fun a b : String => a ≤ b) ∧
      ∃ d ∈ [(⟨"a", ["c", "b"]⟩ : Edge)],
        (⟨"a", ["b", "c"]⟩ : Edge).ID = d.ID ∧ (["b", "c"] : List String).Perm d.DependsOn :=
  uniqueDeps_targets_sorted [⟨"a", ["c", "b"]⟩] ⟨"a", ["b", "c"]⟩ (by decide)

end Npm
